import Mathlib

/- Verification of the transform core of a bzip2-style block compressor
(BWT, combined MTF+RLE2, canonical Huffman construction), as a shallow
embedding of the Rust source.  Bytes are modelled as natural numbers;
wherever the source casts a value to `u8` the embedding reduces modulo
256. -/

namespace Bzippr

/-- Equality of `Except` values is decidable when it is on both components;
used to evaluate the embedded fallible functions on concrete inputs. -/
instance {ε α : Type} [DecidableEq ε] [DecidableEq α] : DecidableEq (Except ε α) := fun x y =>
  match x, y with
  | .error e₁, .error e₂ =>
    decidable_of_iff (e₁ = e₂) ⟨fun h => by rw [h], fun h => by injection h⟩
  | .error _, .ok _ => isFalse (fun h => Except.noConfusion h)
  | .ok _, .error _ => isFalse (fun h => Except.noConfusion h)
  | .ok a₁, .ok a₂ =>
    decidable_of_iff (a₁ = a₂) ⟨fun h => by rw [h], fun h => by injection h⟩

/-- Error values surfaced by the BWT encoder and decoder, mirroring the
`anyhow` errors of the source. -/
inductive BwtError where
  | indexOutOfBounds (i : ℕ)
  | originalIndexOutOfBounds (i : ℕ)
  | shiftEmpty
deriving DecidableEq, Repr

/-- Result of a BWT encode: permuted data plus the sorted position of the
original block (struct `BwtEncoded`). -/
structure BwtEncoded where
  data : List ℕ
  original_index : ℕ
deriving DecidableEq, Repr

/-- Constructor `BwtEncoded::empty`. -/
def BwtEncoded.empty : BwtEncoded := ⟨[], 0⟩

/-- Checked indexing `BwtEncoded::try_get`. -/
def BwtEncoded.try_get (e : BwtEncoded) (index : ℕ) : Except BwtError ℕ :=
  match e.data[index]? with
  | some b => .ok b
  | none => .error (.indexOutOfBounds index)

/-- Loop body of `get_from_index`: reads `k` bytes cyclically starting at
`cur`, stepping by `(cur + 1) % data.len()`. -/
def gfiGo (data : List ℕ) : ℕ → ℕ → Except BwtError (List ℕ)
  | 0, _ => .ok []
  | k + 1, cur =>
    match data[cur]? with
    | none => .error (.indexOutOfBounds cur)
    | some b =>
      match gfiGo data k ((cur + 1) % data.length) with
      | .error e => .error e
      | .ok rest => .ok (b :: rest)

/-- Function `get_from_index`: the cyclic rotation of `data` starting at
`index`. -/
def get_from_index (data : List ℕ) (index : ℕ) : Except BwtError (List ℕ) :=
  gfiGo data data.length index

/-- Loop of `get_shifts` over the row indices. -/
def shiftsGo (data : List ℕ) : List ℕ → Except BwtError (List (List ℕ))
  | [] => .ok []
  | i :: is =>
    match get_from_index data i with
    | .error e => .error e
    | .ok row =>
      match shiftsGo data is with
      | .error e => .error e
      | .ok rows => .ok (row :: rows)

/-- Function `get_shifts`: all cyclic rotations of `data` in starting-index
order. -/
def get_shifts (data : List ℕ) : Except BwtError (List (List ℕ)) :=
  if data.length = 0 then .ok [[]]
  else shiftsGo data (List.range data.length)

/-- Lexicographic sort of a table of rows (`Vec::sort_unstable` under the
lexicographic `Ord` on `Vec<u8>`; a sorted permutation is unique, so the
choice of sorting algorithm is immaterial). -/
def sortLex (t : List (List ℕ)) : List (List ℕ) :=
  List.insertionSort (· ≤ ·) t

/-- First index of row `x` in a table (`Iterator::position`). -/
def firstIdxOf? (x : List ℕ) : List (List ℕ) → Option ℕ
  | [] => none
  | y :: ys => if y = x then some 0 else (firstIdxOf? x ys).map (· + 1)

/-- Function `sort_table`: sorts the table and returns the sorted position of
the row that was first before sorting (`unwrap_or(0)` when absent). -/
def sort_table (t : List (List ℕ)) : List (List ℕ) × ℕ :=
  if t.length ≤ 1 then (t, 0)
  else
    let orig := t.headI
    let sorted := sortLex t
    (sorted, (firstIdxOf? orig sorted).getD 0)

/-- The last byte of every row (`shift.last().ok_or(...)` collected). -/
def lastColumn : List (List ℕ) → Except BwtError (List ℕ)
  | [] => .ok []
  | r :: rs =>
    match r.getLast? with
    | none => .error .shiftEmpty
    | some b =>
      match lastColumn rs with
      | .error e => .error e
      | .ok bs => .ok (b :: bs)

/-- BWT encode (`impl TryFrom<&[u8]> for BwtEncoded`). -/
def bwtEncode (data : List ℕ) : Except BwtError BwtEncoded :=
  if data = [] then .ok BwtEncoded.empty
  else
    match get_shifts data with
    | .error e => .error e
    | .ok shifts =>
      let st := sort_table shifts
      match lastColumn st.1 with
      | .error e => .error e
      | .ok lc => .ok ⟨lc, st.2⟩

/-- Inner row loop of the decode: writes `data[row]` into column `col` of
every row of the table in order (`data_table[row][col] = self.try_get(row)?`;
the table always has `data.len()` rows). -/
def writeColRows (data : List ℕ) (col : ℕ) :
    List (List ℕ) → ℕ → Except BwtError (List (List ℕ))
  | [], _ => .ok []
  | r :: rs, row =>
    match data[row]? with
    | none => .error (.indexOutOfBounds row)
    | some b =>
      match writeColRows data col rs (row + 1) with
      | .error e => .error e
      | .ok rest => .ok (r.set col b :: rest)

/-- Outer column loop of the decode: for each column (highest first), write
the encoded data down the column and re-sort the table (the index returned by
`sort_table` is dropped here). -/
def decodeLoop (data : List ℕ) : List ℕ → List (List ℕ) → Except BwtError (List (List ℕ))
  | [], table => .ok table
  | col :: cols, table =>
    match writeColRows data col table 0 with
    | .error e => .error e
    | .ok t => decodeLoop data cols (sort_table t).1

/-- BWT decode (`impl TryInto<Vec<u8>> for BwtEncoded`). -/
def bwtDecode (e : BwtEncoded) : Except BwtError (List ℕ) :=
  if e.data.length = 0 then .ok []
  else
    match decodeLoop e.data (List.range e.data.length).reverse
        (List.replicate e.data.length (List.replicate e.data.length 0)) with
    | .error er => .error er
    | .ok table =>
      match table[e.original_index]? with
      | none => .error (.originalIndexOutOfBounds e.original_index)
      | some row => .ok row

/-- A marker for a Rust panic (`expect`, `unwrap`, `todo!`): the embedded
functions return `.error .panic` exactly where the source would panic. -/
inductive Panic where
  | panic
deriving DecidableEq, Repr

/-- MTF symbols (enum `MtfIndex`): the two run digits and literal values. -/
inductive MtfIndex where
  | RunA
  | RunB
  | Val (v : ℕ)
deriving DecidableEq, Repr

/-- Struct `MtfTransform`: RLE2-compressed MTF indices plus the sorted
distinct-byte stack. -/
structure MtfTransform where
  indices : List MtfIndex
  stack : List ℕ
deriving DecidableEq, Repr

/-- Insertion into a strictly ascending list of distinct values; folding it
over the input models collecting the bytes into a `BTreeSet` and iterating it
in ascending order. -/
def insertSorted (b : ℕ) : List ℕ → List ℕ
  | [] => [b]
  | a :: rest =>
    if b < a then b :: a :: rest
    else if b = a then a :: rest
    else a :: insertSorted b rest

/-- The stack of `MtfTransform::encode`: the distinct bytes of the input in
ascending order. -/
def mkStack (data : List ℕ) : List ℕ := data.foldr insertSorted []

/-- First position of `b` in the working stack (`Iterator::position` followed
by `.expect(..)`; the byte is always present at every call site, so the
out-of-stack case of this total model is never reached). -/
def idxInStack (b : ℕ) : List ℕ → ℕ
  | [] => 0
  | a :: rest => if a = b then 0 else idxInStack b rest + 1

/-- Move the element at position `p` to the front
(`working_stack[0..=position].rotate_right(1); working_stack[0] = val`). -/
def move_to_front (p : ℕ) (ws : List ℕ) : List ℕ :=
  match ws[p]? with
  | some v => v :: (ws.take p ++ ws.drop (p + 1))
  | none => ws

/-- The raw move-to-front pass of `MtfTransform::encode`: emits one index per
input byte, pushing `0` for a repeat of the previous byte and otherwise the
byte's position in the working stack (cast to `u8` in the source, hence the
`% 256`), rotating that position to the front. -/
def mtfPass : List ℕ → List ℕ → Option ℕ → List ℕ
  | [], _, _ => []
  | b :: rest, ws, cur =>
    if cur = some b then 0 :: mtfPass rest ws cur
    else
      idxInStack b ws % 256 ::
        mtfPass rest (if 0 < idxInStack b ws then move_to_front (idxInStack b ws) ws else ws)
          (some b)

/-- Core of `chunk_by`: splits off the maximal leading run related by `R` and
recursively chunks the remainder. -/
def chunkByCore (R : ℕ → ℕ → Bool) (a : ℕ) : List ℕ → List ℕ × List (List ℕ)
  | [] => ([a], [])
  | b :: rest =>
    let s := chunkByCore R b rest
    if R a b then (a :: s.1, s.2) else ([a], s.1 :: s.2)

/-- Slice `chunk_by`: maximal chunks whose adjacent elements satisfy `R`. -/
def chunk_by (R : ℕ → ℕ → Bool) : List ℕ → List (List ℕ)
  | [] => []
  | a :: rest =>
    let s := chunkByCore R a rest
    s.1 :: s.2

/-- The chunking predicate of the RLE2 pass:
`(a == 0 && b == 0) || (a != 0 && b != 0)`. -/
def zeroPred (a b : ℕ) : Bool := (a == 0 && b == 0) || (a != 0 && b != 0)

/-- Fuelled body of `emit_run`; the run length strictly decreases, so fuel
equal to the initial length always suffices. -/
def emitRunGo : ℕ → ℕ → List MtfIndex
  | 0, _ => []
  | fuel + 1, L =>
    if L = 0 then []
    else if L % 2 = 1 then .RunA :: emitRunGo fuel ((L - 1) / 2)
    else .RunB :: emitRunGo fuel ((L - 2) / 2)

/-- Function `emit_run`: the bijective base-2 digits (RunA = 1, RunB = 2) of a
zero-run length. -/
def emit_run (L : ℕ) : List MtfIndex := emitRunGo L L

/-- RLE2 pass of `MtfTransform::encode`: zero chunks become run digits,
nonzero chunks literal `Val` symbols. -/
def rle2Encode (raw : List ℕ) : List MtfIndex :=
  (chunk_by zeroPred raw).flatMap fun c =>
    if c.headI = 0 then emit_run c.length else c.map .Val

/-- `MtfTransform::encode`: the combined MTF + RLE2 transform. -/
def mtfEncode (data : List ℕ) : MtfTransform :=
  if data = [] then ⟨[], []⟩
  else
    let stack := mkStack data
    ⟨rle2Encode (mtfPass data stack none), stack⟩

/-- RLE2 decoding pass of `MtfTransform::decode`: run digits accumulate
`run_length` (RunA adds `power`, RunB adds `2 * power`, both double `power`),
a `Val` flushes the pending zero run, and a trailing run is flushed at the
end. -/
def rleGo : List MtfIndex → ℕ → ℕ → List ℕ
  | [], run, _ => List.replicate run 0
  | .RunA :: rest, run, pow => rleGo rest (run + pow) (pow * 2)
  | .RunB :: rest, run, pow => rleGo rest (run + pow * 2) (pow * 2)
  | .Val i :: rest, run, pow =>
    if 0 < run then List.replicate run 0 ++ i :: rleGo rest 0 1
    else i :: rleGo rest run pow

/-- MTF decoding pass of `MtfTransform::decode`: looks each raw index up in
the working stack (`.expect(..)` on a missing entry, modelled as
`.error .panic`) and rotates nonzero positions to the front. -/
def mtfDecodeGo : List ℕ → List ℕ → Except Panic (List ℕ)
  | [], _ => .ok []
  | idx :: rest, ws =>
    match ws[idx]? with
    | none => .error .panic
    | some symbol =>
      let ws' := if 0 < idx then move_to_front idx ws else ws
      match mtfDecodeGo rest ws' with
      | .error e => .error e
      | .ok out => .ok (symbol :: out)

/-- `MtfTransform::decode`: empty transforms decode to the empty block,
otherwise RLE2-expand the indices and run the MTF decoding pass. -/
def mtfDecode (t : MtfTransform) : Except Panic (List ℕ) :=
  if t.indices.length = 0 then .ok []
  else mtfDecodeGo (rleGo t.indices 0 1) t.stack

/-- Key of a symbol in the frequency map (`FrequencyMap::build`): RunA is 0,
RunB is 1, `Val(i)` is `i + 1`. -/
def symKey : MtfIndex → ℕ
  | .RunA => 0
  | .RunB => 1
  | .Val i => i + 1

/-- An association list with distinct keys models the `HashMap` contents;
`fmInsert` is `HashMap::insert` (replace the value of an existing key,
otherwise add the entry). -/
def fmInsert : List (ℕ × ℕ) → ℕ → ℕ → List (ℕ × ℕ)
  | [], k, v => [(k, v)]
  | e :: rest, k, v => if e.1 = k then (k, v) :: rest else e :: fmInsert rest k v

/-- `*freq_map.entry(sym).or_insert(0) += 1`. -/
def fmBump : List (ℕ × ℕ) → ℕ → List (ℕ × ℕ)
  | [], k => [(k, 1)]
  | e :: rest, k => if e.1 = k then (e.1, e.2 + 1) :: rest else e :: fmBump rest k

/-- `FrequencyMap::build`: seed RunA and RunB with count 0, count every
symbol of the transform, then insert the end-of-block key
`max(stack.len(), 1) + 1` with count 1.  The entries are kept here in
insertion order; the unspecified `HashMap` iteration order is modelled by
quantifying over permutations of this list. -/
def freqBuild (mtf : MtfTransform) : List (ℕ × ℕ) :=
  fmInsert
    (mtf.indices.foldl (fun m idx => fmBump m (symKey idx)) (fmInsert (fmInsert [] 0 0) 1 0))
    (max mtf.stack.length 1 + 1) 1

/-- Huffman tree nodes (struct `Node`).  The source struct has two
`Option<Box<Node>>` children and an `Option<SymbolIndex>` payload; the code
only ever constructs childless nodes (`new_leaf`) and two-child nodes with no
payload (`new_branch`), which are the two shapes modelled here. -/
inductive Node where
  | leaf (freq : ℕ) (symbol : Option ℕ)
  | branch (left : Node) (right : Node) (freq : ℕ)
deriving DecidableEq, Repr

/-- Frequency stored in a node. -/
def Node.freq : Node → ℕ
  | .leaf f _ => f
  | .branch _ _ f => f

/-- Constructor `Node::new_branch`: the parent frequency is the sum. -/
def Node.new_branch (l r : Node) : Node := .branch l r (l.freq + r.freq)

/-- `Node::get_depth`: longest root-to-leaf path, a leaf counting 1. -/
def Node.get_depth : Node → ℕ
  | .leaf _ _ => 1
  | .branch l r _ => 1 + max l.get_depth r.get_depth

/-- Descending stable sort by frequency
(`freq_list.sort_by(|a, b| b.freq.cmp(&a.freq))`; `Vec::sort_by` is stable
and insertion sort is stable, so equal-frequency nodes keep their relative
order in both). -/
def sortNodes (l : List Node) : List Node :=
  List.insertionSort (fun a b => b.freq ≤ a.freq) l

/-- The two `freq_list.pop()` calls of the merge loop: the last element
(popped first, becoming the left child) and the one before it. -/
def popLastTwo (l : List Node) : Option (Node × Node × List Node) :=
  match l.reverse with
  | a :: b :: rest => some (a, b, rest.reverse)
  | _ => none

/-- Fuelled merge loop of `HuffmanEncoder::build_tree`: while more than one
node remains, pop the two lowest-frequency nodes, merge, push the branch at
the end and re-sort.  One merge per fuel unit; fuel equal to the list length
always suffices, and `none` models the `unwrap` panic on an empty list. -/
def mergeLoop : ℕ → List Node → Option (List Node)
  | 0, l => if l.length = 1 then some l else none
  | fuel + 1, l =>
    if l.length = 1 then some l
    else
      match popLastTwo l with
      | none => none
      | some (a, b, rest) => mergeLoop fuel (sortNodes (rest ++ [Node.new_branch a b]))

/-- `HuffmanEncoder::build_tree` applied to one iteration order `ord` of the
frequency map (Rust iterates a `HashMap`, whose order is unspecified; every
theorem below that depends on it quantifies over the order). -/
def build_tree (ord : List (ℕ × ℕ)) : Option Node :=
  match mergeLoop ord.length (sortNodes (ord.map fun e => Node.leaf e.2 (some e.1))) with
  | none => none
  | some l => l.getLast?

/-- `HuffmanEncoder::get_codes`: depth-first traversal collecting the bit
path of every leaf (false for a left edge, true for a right edge).  The
resulting association list models the `CodeTable` hash map. -/
def get_codes : Node → List Bool → List (Option ℕ × List Bool)
  | .leaf _ s, cur => [(s, cur)]
  | .branch l r _, cur => get_codes l (cur ++ [false]) ++ get_codes r (cur ++ [true])

/-- Constant `MAX_HUFFMAN_LEN`. -/
def MAX_HUFFMAN_LEN : ℕ := 20

/-- `HuffmanEncoder::new` on an iteration order of the frequency map: build
the tree, and while its depth exceeds `MAX_HUFFMAN_LEN` call `rebalance` —
which is `todo!()` in the source and therefore panics, modelled as
`.error .panic`. -/
def huffNew (ord : List (ℕ × ℕ)) : Except Panic (Option Node × List (Option ℕ × List Bool)) :=
  match build_tree ord with
  | none => .ok (none, [])
  | some root =>
    if MAX_HUFFMAN_LEN < root.get_depth then .error .panic
    else .ok (some root, get_codes root [])

/-- A symbol stream in which `Val i` occurs `fib (i + 1)` times for
`i = 1, ..., k` (so 1, 2, 3, 5, 8, ... occurrences). -/
def fibIndices : ℕ → List MtfIndex
  | 0 => []
  | i + 1 => fibIndices i ++ List.replicate (Nat.fib (i + 2)) (.Val (i + 1))

/-- An `MtfTransform` whose symbol frequencies are Fibonacci-distributed
(`Val i` occurs `fib (i + 1)` times, i.e. 1, 2, 3, 5, ..., 4181 times, over a
19-byte stack), so the Huffman merge loop degenerates into a chain of depth
21 and `HuffmanEncoder::new` reaches the unimplemented `rebalance`. -/
def fibMtf : MtfTransform := ⟨fibIndices 18, List.range 19⟩

/-- The frequency map of `fibMtf`, written out. -/
def fibOrd : List (ℕ × ℕ) :=
  [(0, 0), (1, 0), (2, 1), (3, 2), (4, 3), (5, 5), (6, 8), (7, 13), (8, 21), (9, 34),
    (10, 55), (11, 89), (12, 144), (13, 233), (14, 377), (15, 610), (16, 987), (17, 1597),
    (18, 2584), (19, 4181), (20, 1)]

/-- Specification-level view of one decode iteration, with the uniform zero
padding stripped: prepend the encoded data as a new first column and re-sort.
The decode loop is proved equal to iterating this on suffix tables. -/
def bwtStep (L : List ℕ) (t : List (List ℕ)) : List (List ℕ) :=
  sortLex (List.zipWith List.cons L t)

/-- Iterated `bwtStep`. -/
def bwtIter (L : List ℕ) : ℕ → List (List ℕ) → List (List ℕ)
  | 0, t => t
  | k + 1, t => bwtIter L k (bwtStep L t)

/-- The zero padding in front of every row of the decode table. -/
def bwtPad (p : ℕ) (l : List ℕ) : List ℕ := List.replicate p 0 ++ l

/-- All cyclic rotations of a block in starting-index order; `get_shifts` is
proved to produce exactly this list. -/
def rotations (data : List ℕ) : List (List ℕ) :=
  (List.range data.length).map fun i => data.rotate i

/-- The literal values appearing in a symbol stream. -/
def valsOf (l : List MtfIndex) : List ℕ :=
  l.filterMap fun idx =>
    match idx with
    | .Val i => some i
    | _ => none

/-- One bit string extends to another (the first is an initial segment of the
second); prefix-freeness of a code table is stated with this. -/
def extendsTo (c₁ c₂ : List Bool) : Prop := ∃ t, c₁ ++ t = c₂

/-- The symbols at the leaves of a Huffman tree, left to right. -/
def leafSyms : Node → List (Option ℕ)
  | .leaf _ s => [s]
  | .branch l r _ => leafSyms l ++ leafSyms r

/- ===== Lemmas about the lexicographic sort and `sort_table` ===== -/

theorem sortLex_sorted (t : List (List ℕ)) : List.Sorted (· ≤ ·) (sortLex t) :=
  List.sorted_insertionSort _ t

theorem sortLex_perm (t : List (List ℕ)) : (sortLex t).Perm t :=
  List.perm_insertionSort _ t

/-- A sorted permutation is unique, so `sortLex` sends any list to the sorted
arrangement of its multiset. -/
theorem sortLex_eq_of_perm (t u : List (List ℕ)) (hp : t.Perm u)
    (hs : List.Sorted (· ≤ ·) u) : sortLex t = u :=
  List.eq_of_perm_of_sorted ((sortLex_perm t).trans hp) (sortLex_sorted t) hs

theorem sortLex_short (t : List (List ℕ)) (h : t.length ≤ 1) : sortLex t = t := by
  match t with
  | [] => rfl
  | [x] => rfl
  | x :: y :: ys => simp at h

theorem sort_table_fst (t : List (List ℕ)) : (sort_table t).1 = sortLex t := by
  rw [sort_table]
  split
  · rw [sortLex_short t (by assumption)]
  · rfl

theorem firstIdxOf?_spec (x : List ℕ) (t : List (List ℕ)) (h : x ∈ t) :
    ∃ i, firstIdxOf? x t = some i ∧ t[i]? = some x := by
  induction t with
  | nil => cases h
  | cons y ys ih =>
    by_cases hy : y = x
    · exact ⟨0, by simp [firstIdxOf?, hy], by simp [hy]⟩
    · have hx : x ∈ ys := by
        rcases List.mem_cons.mp h with h1 | h1
        · exact absurd h1.symm hy
        · exact h1
      obtain ⟨i, h1, h2⟩ := ih hx
      refine ⟨i + 1, ?_, by simpa using h2⟩
      simp [firstIdxOf?, hy, h1]

/- ===== The shifts computed by the encoder are the cyclic rotations ===== -/

theorem gfiGo_ok (data : List ℕ) :
    ∀ (k cur : ℕ), cur < data.length →
      gfiGo data k cur =
        .ok ((List.range k).map fun j => data.getD ((cur + j) % data.length) 0) := by
  intro k
  induction k with
  | zero => intro cur _; simp [gfiGo]
  | succ k ih =>
    intro cur hcur
    have hpos : 0 < data.length := Nat.lt_of_le_of_lt (Nat.zero_le _) hcur
    have hget : data[cur]? = some (data.getD cur 0) := by
      rw [List.getElem?_eq_getElem hcur, List.getD_eq_getElem data 0 hcur]
    have hcur' : (cur + 1) % data.length < data.length := Nat.mod_lt _ hpos
    rw [gfiGo, hget, ih _ hcur']
    simp only [Except.ok.injEq]
    rw [List.range_succ_eq_map]
    simp only [List.map_cons, List.map_map]
    congr 1
    · rw [Nat.add_zero, Nat.mod_eq_of_lt hcur]
    · apply List.map_congr_left
      intro j _
      simp only [Function.comp_apply]
      rw [Nat.mod_add_mod]
      congr 2
      omega

theorem get_from_index_rotate (data : List ℕ) (idx : ℕ) (h : idx < data.length) :
    get_from_index data idx = .ok (data.rotate idx) := by
  have hpos : 0 < data.length := Nat.lt_of_le_of_lt (Nat.zero_le _) h
  rw [get_from_index, gfiGo_ok data _ idx h]
  congr 1
  apply List.ext_getElem
  · simp
  · intro i h1 h2
    simp only [List.getElem_map, List.getElem_range]
    rw [List.getElem_rotate]
    have hlt : (idx + i) % data.length < data.length := Nat.mod_lt _ hpos
    rw [List.getD_eq_getElem data 0 hlt]
    congr 1
    rw [Nat.add_comm]

theorem shiftsGo_ok (data : List ℕ) (l : List ℕ) (hl : ∀ i ∈ l, i < data.length) :
    shiftsGo data l = .ok (l.map fun i => data.rotate i) := by
  induction l with
  | nil => rfl
  | cons i is ih =>
    rw [shiftsGo, get_from_index_rotate data i (hl i (by simp)),
      ih (fun j hj => hl j (by simp [hj]))]
    rfl

theorem get_shifts_ok (data : List ℕ) (hd : data ≠ []) :
    get_shifts data = .ok (rotations data) := by
  have : data.length ≠ 0 := by simpa using hd
  rw [get_shifts, if_neg this, shiftsGo_ok data _ (fun i hi => List.mem_range.mp hi)]
  rfl

theorem lastColumn_ok (t : List (List ℕ)) (h : ∀ r ∈ t, r ≠ []) :
    lastColumn t = .ok (t.map fun r => r.getLastD 0) := by
  induction t with
  | nil => rfl
  | cons r rs ih =>
    have hr : r ≠ [] := h r (by simp)
    have hlast : r.getLast? = some (r.getLastD 0) := by
      rw [List.getLastD_eq_getLast?]
      obtain ⟨b, hb⟩ := Option.isSome_iff_exists.mp (List.getLast?_isSome.mpr hr)
      rw [hb]
      rfl
    rw [lastColumn, hlast, ih (fun s hs => h s (by simp [hs]))]
    rfl

/- ===== The lexicographic order on rows ===== -/

theorem list_lt_iff (x y : List ℕ) : x < y ↔ List.Lex (· < ·) x y := Iff.rfl

theorem list_le_iff (x y : List ℕ) : x ≤ y ↔ x = y ∨ List.Lex (· < ·) x y := Iff.rfl

theorem lex_append_left_cancel (pre : List ℕ) {x y : List ℕ}
    (h : List.Lex (· < ·) (pre ++ x) (pre ++ y)) : List.Lex (· < ·) x y := by
  induction pre with
  | nil => exact h
  | cons a pre ih =>
    apply ih
    cases h with
    | cons h' => exact h'
    | rel hr => exact absurd hr (lt_irrefl a)

theorem le_append_left_iff (pre x y : List ℕ) : pre ++ x ≤ pre ++ y ↔ x ≤ y := by
  rw [list_le_iff, list_le_iff]
  constructor
  · rintro (he | hl)
    · exact Or.inl (List.append_cancel_left he)
    · exact Or.inr (lex_append_left_cancel pre hl)
  · rintro (he | hl)
    · exact Or.inl (by rw [he])
    · exact Or.inr (List.Lex.append_left _ hl pre)

theorem take_lex_le {x y : List ℕ} (hl : List.Lex (· < ·) x y) :
    ∀ k, x.take k ≤ y.take k := by
  induction hl with
  | nil =>
    intro k
    simp only [List.take_nil]
    exact List.nil_le
  | @rel a as b bs hab =>
    intro k
    cases k with
    | zero => simp
    | succ k =>
      simp only [List.take_succ_cons]
      rw [list_le_iff]
      exact Or.inr (List.Lex.rel hab)
  | @cons a as bs _ ih =>
    intro k
    cases k with
    | zero => simp
    | succ k =>
      simp only [List.take_succ_cons]
      exact List.cons_le_cons a (ih k)

theorem take_le_take (k : ℕ) {x y : List ℕ} (h : x ≤ y) : x.take k ≤ y.take k := by
  rcases (list_le_iff x y).mp h with rfl | hl
  · exact le_refl _
  · exact take_lex_le hl k

theorem sorted_map_mono (t : List (List ℕ)) (f : List ℕ → List ℕ)
    (hf : ∀ a b : List ℕ, a ≤ b → f a ≤ f b) (h : List.Sorted (· ≤ ·) t) :
    List.Sorted (· ≤ ·) (t.map f) :=
  h.map f hf

theorem sortLex_map_append (pre : List ℕ) (t : List (List ℕ)) :
    sortLex (t.map fun r => pre ++ r) = (sortLex t).map fun r => pre ++ r := by
  apply sortLex_eq_of_perm
  · exact (sortLex_perm t).symm.map _
  · exact sorted_map_mono _ _ (fun a b hab => (le_append_left_iff pre a b).mpr hab)
      (sortLex_sorted t)

theorem set_append_cons (l₁ : List ℕ) (a : ℕ) (l₂ : List ℕ) (b : ℕ) :
    (l₁ ++ a :: l₂).set l₁.length b = l₁ ++ b :: l₂ := by
  induction l₁ with
  | nil => rfl
  | cons x xs ih =>
    simp only [List.cons_append, List.length_cons, List.set_cons_succ, ih]

/- ===== Shape of a successful encode ===== -/

theorem rotations_row_length (data r : List ℕ) (h : r ∈ rotations data) :
    r.length = data.length := by
  obtain ⟨i, _, rfl⟩ := List.mem_map.mp h
  exact List.length_rotate data i

theorem rotations_row_ne_nil (data : List ℕ) (hd : data ≠ []) {r : List ℕ}
    (h : r ∈ rotations data) : r ≠ [] := by
  have := rotations_row_length data r h
  intro hnil
  rw [hnil] at this
  exact hd (List.eq_nil_of_length_eq_zero this.symm)

theorem mem_rotations_self (data : List ℕ) (hd : data ≠ []) : data ∈ rotations data := by
  have h0 : 0 < data.length := List.length_pos.mpr hd
  exact List.mem_map.mpr ⟨0, List.mem_range.mpr h0, List.rotate_zero data⟩

theorem rotations_headI (data : List ℕ) (hd : data ≠ []) : (rotations data).headI = data := by
  obtain ⟨n, hn⟩ : ∃ n, data.length = n + 1 :=
    ⟨data.length - 1, by have := List.length_pos.mpr hd; omega⟩
  rw [rotations, hn, List.range_succ_eq_map]
  simp [List.rotate_zero]

theorem headI_mem_self (t : List (List ℕ)) (ht : t ≠ []) : t.headI ∈ t := by
  match t with
  | [] => exact absurd rfl ht
  | x :: xs => exact List.mem_cons_self x xs

theorem rotations_ne_nil (data : List ℕ) (hd : data ≠ []) : rotations data ≠ [] := by
  have h0 : 0 < data.length := List.length_pos.mpr hd
  intro h
  have hlen := congrArg List.length h
  simp only [rotations, List.length_map, List.length_range, List.length_nil] at hlen
  omega

theorem sort_table_snd_spec (t : List (List ℕ)) (ht : t ≠ []) :
    (sortLex t)[(sort_table t).2]? = some t.headI := by
  have hmem : t.headI ∈ sortLex t := (sortLex_perm t).mem_iff.mpr (headI_mem_self t ht)
  rw [sort_table]
  split
  · rename_i hlen
    match t, ht, hlen with
    | [x], _, _ => simp [sortLex, List.insertionSort, List.orderedInsert]
    | x :: y :: ys, _, hlen => simp at hlen
  · obtain ⟨i, h1, h2⟩ := firstIdxOf?_spec t.headI (sortLex t) hmem
    simpa [h1] using h2

theorem bwtEncode_ok (data : List ℕ) (hd : data ≠ []) :
    bwtEncode data =
        .ok ⟨(sortLex (rotations data)).map (fun r => r.getLastD 0),
          (sort_table (rotations data)).2⟩ ∧
      (sortLex (rotations data))[(sort_table (rotations data)).2]? = some data := by
  constructor
  · rw [bwtEncode, if_neg hd, get_shifts_ok data hd]
    show (match lastColumn (sort_table (rotations data)).1 with
      | Except.error e => Except.error e
      | Except.ok lc => Except.ok (⟨lc, (sort_table (rotations data)).2⟩ : BwtEncoded)) = _
    rw [sort_table_fst,
      lastColumn_ok _ (fun r hr => rotations_row_ne_nil data hd ((sortLex_perm _).mem_iff.mp hr))]
  · have h := sort_table_snd_spec (rotations data) (rotations_ne_nil data hd)
    rwa [rotations_headI data hd] at h

/- ===== The decode loop on zero-padded tables ===== -/

theorem zipWith_cons_map (f : List ℕ → ℕ) (g : List ℕ → List ℕ) (t : List (List ℕ)) :
    List.zipWith List.cons (t.map f) (t.map g) = t.map fun r => f r :: g r := by
  induction t with
  | nil => rfl
  | cons x xs ih => simp [ih]

theorem bwtStep_length (L : List ℕ) (S : List (List ℕ)) :
    (bwtStep L S).length = min L.length S.length := by
  rw [bwtStep, (sortLex_perm _).length_eq, List.length_zipWith]

theorem bwtIter_succ_outer (L : List ℕ) (k : ℕ) (t : List (List ℕ)) :
    bwtIter L (k + 1) t = bwtStep L (bwtIter L k t) := by
  induction k generalizing t with
  | zero => rfl
  | succ k ih =>
    rw [bwtIter, ih (bwtStep L t)]
    rfl

theorem bwtIter_length (L : List ℕ) (k : ℕ) (S : List (List ℕ))
    (hS : S.length = L.length) : (bwtIter L k S).length = L.length := by
  induction k with
  | zero => exact hS
  | succ k ih =>
    rw [bwtIter_succ_outer, bwtStep_length, ih]
    omega

theorem pad_set (col : ℕ) (s : List ℕ) (b : ℕ) :
    (bwtPad (col + 1) s).set col b = bwtPad col (b :: s) := by
  rw [bwtPad, bwtPad, List.replicate_succ', List.append_assoc]
  have h := set_append_cons (List.replicate col 0) 0 s b
  simp only [List.length_replicate, List.singleton_append] at h
  exact h

theorem writeColRows_pad (data : List ℕ) (col : ℕ) (S : List (List ℕ)) :
    ∀ j, j + S.length ≤ data.length →
      writeColRows data col (S.map fun r => bwtPad (col + 1) r) j =
        .ok ((List.zipWith List.cons (data.drop j) S).map fun r => bwtPad col r) := by
  induction S with
  | nil =>
    intro j _
    simp [writeColRows]
  | cons s S ih =>
    intro j hj
    have hjlt : j < data.length := by
      simp only [List.length_cons] at hj
      omega
    have hget : data[j]? = some data[j] := List.getElem?_eq_getElem hjlt
    rw [List.map_cons, writeColRows, hget, ih (j + 1) (by simp only [List.length_cons] at hj; omega)]
    rw [List.drop_eq_getElem_cons hjlt]
    simp only [List.zipWith_cons_cons, List.map_cons, pad_set]

theorem decodeLoop_pad (data : List ℕ) :
    ∀ (k : ℕ) (S : List (List ℕ)), S.length = data.length →
      decodeLoop data ((List.range k).reverse) (S.map fun r => bwtPad k r) =
        .ok ((bwtIter data k S).map fun r => bwtPad 0 r) := by
  intro k
  induction k with
  | zero =>
    intro S hS
    rfl
  | succ k ih =>
    intro S hS
    rw [List.range_succ, List.reverse_append]
    simp only [List.reverse_cons, List.reverse_nil, List.nil_append, List.singleton_append]
    rw [decodeLoop, writeColRows_pad data k S 0 (by omega)]
    show decodeLoop data (List.range k).reverse
        (sort_table ((List.zipWith List.cons (List.drop 0 data) S).map fun r => bwtPad k r)).1 = _
    rw [sort_table_fst]
    have hsort : sortLex ((List.zipWith List.cons (data.drop 0) S).map fun r => bwtPad k r) =
        (sortLex (List.zipWith List.cons (data.drop 0) S)).map fun r => bwtPad k r :=
      sortLex_map_append (List.replicate k 0) _
    rw [hsort, List.drop_zero]
    have hstep : sortLex (List.zipWith List.cons data S) = bwtStep data S := rfl
    rw [hstep, ih (bwtStep data S) (by rw [bwtStep_length]; omega), bwtIter]

theorem init_table_eq (n : ℕ) :
    List.replicate n (List.replicate n (0 : ℕ)) =
      (List.replicate n ([] : List ℕ)).map fun r => bwtPad n r := by
  rw [List.map_replicate]
  simp [bwtPad]

theorem map_pad_zero (t : List (List ℕ)) : (t.map fun r => bwtPad 0 r) = t := by
  simp [bwtPad]

/- ===== The sorted decode tables are the sorted rotation prefixes ===== -/

theorem rotate_ne_nil (data : List ℕ) (hd : data ≠ []) (j : ℕ) : data.rotate j ≠ [] := by
  intro h
  apply hd
  have hlen := congrArg List.length h
  rw [List.length_rotate] at hlen
  exact List.eq_nil_of_length_eq_zero hlen

theorem getLastD_rotate (data : List ℕ) (hd : data ≠ []) (j : ℕ) :
    some ((data.rotate j).getLastD 0) = data[(data.length - 1 + j) % data.length]? := by
  have hne := rotate_ne_nil data hd j
  have hpos : 0 < data.length := List.length_pos.mpr hd
  rw [List.getLastD_eq_getLast?, List.getLast?_eq_getLast _ hne]
  show some ((data.rotate j).getLast hne) = _
  rw [List.getLast_eq_getElem, ← List.getElem?_eq_getElem,
    List.getElem?_rotate (by rw [List.length_rotate]; omega)]
  rw [List.length_rotate]

theorem rotate_take_succ (data : List ℕ) (hd : data ≠ []) (j k : ℕ)
    (hk : k + 1 ≤ data.length) :
    (data.rotate ((data.length - 1 + j) % data.length)).take (k + 1) =
      (data.rotate j).getLastD 0 :: (data.rotate j).take k := by
  have hpos : 0 < data.length := List.length_pos.mpr hd
  apply List.ext_getElem?
  intro i
  match i with
  | 0 =>
    rw [List.getElem?_take_of_lt (by omega), List.getElem?_cons_zero,
      List.getElem?_rotate hpos, Nat.zero_add, Nat.mod_mod]
    exact (getLastD_rotate data hd j).symm
  | i + 1 =>
    by_cases hik : i < k
    · rw [List.getElem?_take_of_lt (by omega), List.getElem?_cons_succ,
        List.getElem?_take_of_lt hik,
        List.getElem?_rotate (by omega : i + 1 < data.length),
        List.getElem?_rotate (by omega : i < data.length)]
      congr 1
      rw [Nat.add_mod_mod]
      have harith : i + 1 + (data.length - 1 + j) = i + j + data.length := by omega
      rw [harith, Nat.add_mod_right]
    · rw [List.getElem?_eq_none, List.getElem?_eq_none]
      · simp only [List.length_cons, List.length_take, List.length_rotate]
        omega
      · simp only [List.length_take, List.length_rotate]
        omega

theorem range_map_pred_perm (n : ℕ) (hn : 0 < n) :
    ((List.range n).map fun j => (n - 1 + j) % n).Perm (List.range n) := by
  obtain ⟨m, rfl⟩ : ∃ m, n = m + 1 := ⟨n - 1, by omega⟩
  have heq : (List.range (m + 1)).map (fun j => (m + 1 - 1 + j) % (m + 1)) =
      m :: List.range m := by
    rw [List.range_succ_eq_map]
    simp only [List.map_cons, List.map_map]
    congr 1
    · show (m + 1 - 1 + 0) % (m + 1) = m
      rw [Nat.add_zero]
      exact Nat.mod_eq_of_lt (by omega)
    · rw [List.map_congr_left (g := fun j => j), List.map_id']
      intro j hj
      have hjm := List.mem_range.mp hj
      show (m + 1 - 1 + (j + 1)) % (m + 1) = j
      have harith : m + 1 - 1 + (j + 1) = j + (m + 1) := by omega
      rw [harith, Nat.add_mod_right]
      exact Nat.mod_eq_of_lt (by omega)
  rw [heq, List.range_succ]
  exact (List.perm_append_singleton m (List.range m)).symm

theorem step_take (data : List ℕ) (hd : data ≠ []) (k : ℕ) (hk : k + 1 ≤ data.length) :
    bwtStep ((sortLex (rotations data)).map fun r => r.getLastD 0)
        ((sortLex (rotations data)).map fun r => r.take k) =
      (sortLex (rotations data)).map fun r => r.take (k + 1) := by
  have hpos : 0 < data.length := List.length_pos.mpr hd
  rw [bwtStep, zipWith_cons_map]
  apply sortLex_eq_of_perm
  · refine ((sortLex_perm _).map _).trans (List.Perm.trans ?_ ((sortLex_perm _).symm.map _))
    have p2 : ((rotations data).map fun r => r.getLastD 0 :: r.take k) =
        ((List.range data.length).map fun j => (data.length - 1 + j) % data.length).map
          (fun j => (data.rotate j).take (k + 1)) := by
      rw [rotations, List.map_map, List.map_map]
      apply List.map_congr_left
      intro j hj
      show (data.rotate j).getLastD 0 :: (data.rotate j).take k = _
      exact (rotate_take_succ data hd j k hk).symm
    have p4 : ((rotations data).map fun r => r.take (k + 1)) =
        (List.range data.length).map fun j => (data.rotate j).take (k + 1) := by
      rw [rotations, List.map_map]
      rfl
    rw [p2, p4]
    exact (range_map_pred_perm data.length hpos).map _
  · exact sorted_map_mono _ _ (fun a b hab => take_le_take _ hab) (sortLex_sorted _)

theorem sortLex_rotations_length (data : List ℕ) :
    (sortLex (rotations data)).length = data.length := by
  rw [(sortLex_perm _).length_eq, rotations, List.length_map, List.length_range]

theorem bwtIter_take (data : List ℕ) (hd : data ≠ []) :
    ∀ k, k ≤ data.length →
      bwtIter ((sortLex (rotations data)).map fun r => r.getLastD 0) k
          (List.replicate data.length []) =
        (sortLex (rotations data)).map fun r => r.take k := by
  intro k
  induction k with
  | zero =>
    intro _
    show List.replicate data.length [] = _
    simp only [List.take_zero]
    rw [List.map_const', sortLex_rotations_length]
  | succ k ih =>
    intro hk
    rw [bwtIter_succ_outer, ih (by omega), step_take data hd k hk]

theorem bwtIter_full (data : List ℕ) (hd : data ≠ []) :
    bwtIter ((sortLex (rotations data)).map fun r => r.getLastD 0) data.length
        (List.replicate data.length []) = sortLex (rotations data) := by
  rw [bwtIter_take data hd data.length (le_refl _)]
  rw [List.map_congr_left (g := fun r => r), List.map_id']
  intro r hr
  exact List.take_of_length_le
    (by rw [rotations_row_length data r ((sortLex_perm _).mem_iff.mp hr)])

theorem bwtDecode_ok_of_get (data : List ℕ) (hd : data ≠ []) (oi : ℕ) (row : List ℕ)
    (hrow : (sortLex (rotations data))[oi]? = some row) :
    bwtDecode ⟨(sortLex (rotations data)).map fun r => r.getLastD 0, oi⟩ = .ok row := by
  have hpos : 0 < data.length := List.length_pos.mpr hd
  have hLlen : ((sortLex (rotations data)).map fun r => r.getLastD 0).length = data.length := by
    rw [List.length_map, sortLex_rotations_length]
  rw [bwtDecode]
  show (if (((sortLex (rotations data)).map fun r => r.getLastD 0).length = 0) then _ else _) = _
  rw [if_neg (by omega), hLlen, init_table_eq,
    decodeLoop_pad _ data.length (List.replicate data.length [])
      (by rw [List.length_replicate, hLlen]),
    map_pad_zero, bwtIter_full data hd]
  show (match (sortLex (rotations data))[oi]? with
    | none => Except.error (BwtError.originalIndexOutOfBounds oi)
    | some r => Except.ok r) = Except.ok row
  rw [hrow]

theorem bwtDecode_oob (data : List ℕ) (oi : ℕ) (hd : data ≠ []) (hoi : data.length ≤ oi) :
    bwtDecode ⟨data, oi⟩ = .error (.originalIndexOutOfBounds oi) := by
  have hpos : 0 < data.length := List.length_pos.mpr hd
  rw [bwtDecode]
  show (if data.length = 0 then _ else _) = _
  rw [if_neg (by omega), init_table_eq,
    decodeLoop_pad data data.length (List.replicate data.length [])
      (by rw [List.length_replicate]),
    map_pad_zero]
  have hlen : (bwtIter data data.length (List.replicate data.length [])).length = data.length :=
    bwtIter_length _ _ _ (by rw [List.length_replicate])
  show (match (bwtIter data data.length (List.replicate data.length []))[oi]? with
    | none => Except.error (BwtError.originalIndexOutOfBounds oi)
    | some r => Except.ok r) = _
  rw [List.getElem?_eq_none (by omega)]

/-- C1: BWT round-trip.  For every byte block (the empty block, single-byte
blocks, all-identical blocks and arbitrary binary blocks included), encoding
with `BwtEncoded::try_from` succeeds, and decoding the result via
`TryInto<Vec<u8>>` succeeds and returns exactly the original block. -/
theorem c1_bwt_roundTrip (data : List ℕ) :
    ∃ e, bwtEncode data = .ok e ∧ bwtDecode e = .ok data := by
  by_cases hd : data = []
  · subst hd
    exact ⟨BwtEncoded.empty, rfl, rfl⟩
  · obtain ⟨henc, hidx⟩ := bwtEncode_ok data hd
    exact ⟨_, henc, bwtDecode_ok_of_get data hd _ data hidx⟩

/-- C7 counterexample: encoding the block "BANANA" does not produce the data
"BNNAAA" with original index 3 that the claim states; the encoder's actual
output differs. -/
theorem c7_banana_cex :
    bwtEncode [66, 65, 78, 65, 78, 65] ≠ .ok ⟨[66, 78, 78, 65, 65, 65], 3⟩ := by decide

/-- C7 (amended): encoding the 6-byte block "BANANA" with
`BwtEncoded::try_from` yields data equal to the byte string "NNBAAA" and
original index 3 (the position of the unrotated block among the sorted cyclic
rotations). -/
theorem c7_banana :
    bwtEncode [66, 65, 78, 65, 78, 65] = .ok ⟨[78, 78, 66, 65, 65, 65], 3⟩ := by decide

/-- C9: decoding a `BwtEncoded` with nonempty data and an original index at
least `data.len()` returns an index-out-of-bounds error value to the caller
(no panic exists on this path). -/
theorem c9_decode_oob (data : List ℕ) (oi : ℕ) (hd : data ≠ []) (hoi : data.length ≤ oi) :
    bwtDecode ⟨data, oi⟩ = .error (.originalIndexOutOfBounds oi) :=
  bwtDecode_oob data oi hd hoi

/-- C9 witness: the out-of-bounds decode error at a concrete input. -/
theorem c9_decode_oob_witness :
    ([1, 2] : List ℕ) ≠ [] ∧ ([1, 2] : List ℕ).length ≤ 5 ∧
      bwtDecode ⟨[1, 2], 5⟩ = .error (.originalIndexOutOfBounds 5) :=
  ⟨by decide, by decide, c9_decode_oob [1, 2] 5 (by decide) (by decide)⟩

/- ===== The RLE2 run digits and their decoding ===== -/

theorem rleGo_emitRunGo (fuel : ℕ) :
    ∀ L, L ≤ fuel → ∀ (rest : List MtfIndex) (run pow : ℕ), 0 < pow →
      ∃ pow', 0 < pow' ∧
        rleGo (emitRunGo fuel L ++ rest) run pow = rleGo rest (run + pow * L) pow' := by
  induction fuel with
  | zero =>
    intro L hL rest run pow hpow
    have hL0 : L = 0 := by omega
    subst hL0
    exact ⟨pow, hpow, by simp [emitRunGo]⟩
  | succ fuel ih =>
    intro L hL rest run pow hpow
    by_cases hL0 : L = 0
    · subst hL0
      exact ⟨pow, hpow, by simp [emitRunGo]⟩
    · by_cases hodd : L % 2 = 1
      · obtain ⟨m, rfl⟩ : ∃ m, L = 2 * m + 1 := ⟨L / 2, by omega⟩
        rw [emitRunGo, if_neg hL0, if_pos hodd, List.cons_append, rleGo]
        have hm : (2 * m + 1 - 1) / 2 = m := by omega
        rw [hm]
        obtain ⟨pow', h1, h2⟩ := ih m (by omega) rest (run + pow) (pow * 2) (by omega)
        refine ⟨pow', h1, ?_⟩
        rw [h2]
        congr 1
        ring
      · obtain ⟨m, rfl⟩ : ∃ m, L = 2 * m + 2 := ⟨(L - 2) / 2, by omega⟩
        rw [emitRunGo, if_neg hL0, if_neg hodd, List.cons_append, rleGo]
        have hm : (2 * m + 2 - 2) / 2 = m := by omega
        rw [hm]
        obtain ⟨pow', h1, h2⟩ := ih m (by omega) rest (run + pow * 2) (pow * 2) (by omega)
        refine ⟨pow', h1, ?_⟩
        rw [h2]
        congr 1
        ring

theorem rleGo_emit_run_flush (L : ℕ) (hL : 1 ≤ L) (rest : List MtfIndex)
    (hrest : rest = [] ∨ ∃ j t, rest = .Val j :: t) :
    rleGo (emit_run L ++ rest) 0 1 = List.replicate L 0 ++ rleGo rest 0 1 := by
  obtain ⟨pow', hpow', heq⟩ := rleGo_emitRunGo L L (le_refl L) rest 0 1 (by omega)
  rw [emit_run, heq]
  simp only [Nat.zero_add, Nat.one_mul]
  rcases hrest with rfl | ⟨j, t, rfl⟩
  · simp [rleGo]
  · simp only [rleGo, if_pos (by omega : 0 < L), if_neg (lt_irrefl 0)]

theorem rleGo_map_val (c : List ℕ) (rest : List MtfIndex) :
    rleGo (c.map .Val ++ rest) 0 1 = c ++ rleGo rest 0 1 := by
  induction c with
  | nil => rfl
  | cons a c ih =>
    simp only [List.map_cons, List.cons_append, rleGo, if_neg (lt_irrefl 0), List.append_eq]
    rw [ih]

/- ===== Chunk structure produced by `chunk_by` for the RLE2 predicate ===== -/

theorem zeroPred_iff (a b : ℕ) : zeroPred a b = true ↔ (a = 0 ↔ b = 0) := by
  simp only [zeroPred, Bool.or_eq_true, Bool.and_eq_true, beq_iff_eq, bne_iff_ne]
  constructor
  · rintro (⟨h1, h2⟩ | ⟨h1, h2⟩) <;> constructor <;> intro h <;> first | exact h2 | tauto
  · intro h
    by_cases ha : a = 0
    · exact Or.inl ⟨ha, h.mp ha⟩
    · exact Or.inr ⟨ha, fun hb => ha (h.mpr hb)⟩

theorem chunkByCore_spec (l : List ℕ) :
    ∀ a : ℕ,
      (chunkByCore zeroPred a l).1 ≠ [] ∧
      (chunkByCore zeroPred a l).1.headI = a ∧
      (∀ x ∈ (chunkByCore zeroPred a l).1, (x = 0 ↔ a = 0)) ∧
      (∀ c ∈ (chunkByCore zeroPred a l).2, c ≠ [] ∧ ∀ x ∈ c, (x = 0 ↔ c.headI = 0)) ∧
      List.Chain' (fun c c' : List ℕ => ¬(c.headI = 0 ∧ c'.headI = 0))
        ((chunkByCore zeroPred a l).1 :: (chunkByCore zeroPred a l).2) := by
  induction l with
  | nil =>
    intro a
    refine ⟨by simp [chunkByCore], by simp [chunkByCore], ?_, by simp [chunkByCore], ?_⟩
    · intro x hx
      simp only [chunkByCore, List.mem_singleton] at hx
      rw [hx]
    · simp [chunkByCore]
  | cons b rest ih =>
    intro a
    obtain ⟨hne, hhead, hunif, hchunks, hchain⟩ := ih b
    rw [chunkByCore]
    by_cases hR : zeroPred a b
    · rw [if_pos hR]
      have hab := (zeroPred_iff a b).mp hR
      refine ⟨by simp, by simp, ?_, hchunks, ?_⟩
      · intro x hx
        rcases List.mem_cons.mp hx with rfl | hx
        · exact Iff.rfl
        · exact (hunif x hx).trans hab.symm
      · cases hcs : (chunkByCore zeroPred b rest).2 with
        | nil => simp
        | cons c cs =>
          rw [hcs] at hchain
          obtain ⟨hlink, htail⟩ := List.chain'_cons.mp hchain
          refine List.chain'_cons.mpr ⟨?_, htail⟩
          rw [hhead] at hlink
          simpa [hab] using hlink
    · rw [if_neg hR]
      have hab : ¬(a = 0 ↔ b = 0) := fun h => hR ((zeroPred_iff a b).mpr h)
      refine ⟨by simp, by simp, by simp, ?_, ?_⟩
      · intro c hc
        rcases List.mem_cons.mp hc with rfl | hc
        · exact ⟨hne, by rw [hhead]; exact hunif⟩
        · exact hchunks c hc
      · refine List.chain'_cons.mpr ⟨?_, hchain⟩
        rw [hhead]
        simp only [List.headI]
        tauto

theorem chunkByCore_flatten (l : List ℕ) :
    ∀ a : ℕ,
      (chunkByCore zeroPred a l).1 ++ (chunkByCore zeroPred a l).2.flatten = a :: l := by
  induction l with
  | nil => intro a; rfl
  | cons b rest ih =>
    intro a
    rw [chunkByCore]
    by_cases hR : zeroPred a b
    · rw [if_pos hR]
      simp only [List.cons_append]
      rw [ih b]
    · rw [if_neg hR]
      simp only [List.singleton_append, List.flatten_cons]
      rw [ih b]

theorem rleGo_chunks (cs : List (List ℕ))
    (hprops : ∀ c ∈ cs, c ≠ [] ∧ ∀ x ∈ c, (x = 0 ↔ c.headI = 0))
    (hch : List.Chain' (fun c c' : List ℕ => ¬(c.headI = 0 ∧ c'.headI = 0)) cs) :
    rleGo (cs.flatMap fun c => if c.headI = 0 then emit_run c.length else c.map .Val) 0 1 =
      cs.flatten := by
  induction cs with
  | nil => rfl
  | cons c cs ih =>
    obtain ⟨hcne, hcunif⟩ := hprops c (by simp)
    rw [List.flatMap_cons, List.flatten_cons]
    by_cases hc0 : c.headI = 0
    · rw [if_pos hc0]
      have hcz : c = List.replicate c.length 0 :=
        List.eq_replicate_iff.mpr ⟨rfl, fun b hb => (hcunif b hb).mpr hc0⟩
      have hL : 1 ≤ c.length := by
        cases c with
        | nil => exact absurd rfl hcne
        | cons x xs => simp
      have hrest :
          (cs.flatMap fun c => if c.headI = 0 then emit_run c.length else c.map .Val) = [] ∨
          ∃ j t, (cs.flatMap fun c => if c.headI = 0 then emit_run c.length else c.map .Val) =
            .Val j :: t := by
        cases cs with
        | nil => exact Or.inl rfl
        | cons c' cs' =>
          obtain ⟨hc'ne, _⟩ := hprops c' (by simp)
          have hc'0 : ¬ c'.headI = 0 := by
            have hlink := (List.chain'_cons.mp hch).1
            tauto
          rw [List.flatMap_cons, if_neg hc'0]
          obtain ⟨x, xs, rfl⟩ : ∃ x xs, c' = x :: xs := by
            cases c' with
            | nil => exact absurd rfl hc'ne
            | cons x xs => exact ⟨x, xs, rfl⟩
          exact Or.inr ⟨x, _, rfl⟩
      rw [rleGo_emit_run_flush c.length hL _ hrest,
        ih (fun d hd => hprops d (by simp [hd])) hch.tail]
      congr 1
      exact hcz.symm
    · rw [if_neg hc0, rleGo_map_val, ih (fun d hd => hprops d (by simp [hd])) hch.tail]

theorem rle2_roundTrip (raw : List ℕ) : rleGo (rle2Encode raw) 0 1 = raw := by
  cases raw with
  | nil => rfl
  | cons a rest =>
    obtain ⟨hne, hhead, hunif, hchunks, hchain⟩ := chunkByCore_spec rest a
    show rleGo (((chunkByCore zeroPred a rest).1 :: (chunkByCore zeroPred a rest).2).flatMap
      fun c => if c.headI = 0 then emit_run c.length else c.map .Val) 0 1 = a :: rest
    rw [rleGo_chunks _ ?props hchain]
    · rw [List.flatten_cons, chunkByCore_flatten]
    case props =>
      intro c hc
      rcases List.mem_cons.mp hc with rfl | hc
      · exact ⟨hne, by rw [hhead]; exact hunif⟩
      · exact hchunks c hc

/- ===== The MTF pass and its decoding ===== -/

theorem idxInStack_spec (b : ℕ) (ws : List ℕ) (h : b ∈ ws) :
    ws[idxInStack b ws]? = some b ∧ idxInStack b ws < ws.length := by
  induction ws with
  | nil => cases h
  | cons a ws ih =>
    by_cases hab : a = b
    · subst hab
      simp [idxInStack]
    · have hb : b ∈ ws := by
        rcases List.mem_cons.mp h with rfl | h1
        · exact absurd rfl hab
        · exact h1
      obtain ⟨h1, h2⟩ := ih hb
      rw [idxInStack, if_neg hab]
      refine ⟨by simpa using h1, ?_⟩
      simp only [List.length_cons]
      omega

theorem move_to_front_perm (p : ℕ) (ws : List ℕ) : (move_to_front p ws).Perm ws := by
  rw [move_to_front]
  cases hget : ws[p]? with
  | none => exact List.Perm.refl ws
  | some v =>
    obtain ⟨hp, hv⟩ := List.getElem?_eq_some_iff.mp hget
    have hdecomp : ws.take p ++ v :: ws.drop (p + 1) = ws := by
      have hd := List.drop_eq_getElem_cons hp
      calc ws.take p ++ v :: ws.drop (p + 1)
          = ws.take p ++ ws.drop p := by rw [hd, hv]
        _ = ws := List.take_append_drop p ws
    have hperm : (ws.take p ++ v :: ws.drop (p + 1)).Perm
        (v :: (ws.take p ++ ws.drop (p + 1))) := List.perm_middle
    rw [hdecomp] at hperm
    exact hperm.symm

theorem move_to_front_head (p : ℕ) (ws : List ℕ) (v : ℕ) (h : ws[p]? = some v) :
    (move_to_front p ws)[0]? = some v := by
  rw [move_to_front, h]
  simp

theorem mtfDecodeGo_cons (idx : ℕ) (rest : List ℕ) (ws : List ℕ) (v : ℕ)
    (h : ws[idx]? = some v) :
    mtfDecodeGo (idx :: rest) ws =
      match mtfDecodeGo rest (if 0 < idx then move_to_front idx ws else ws) with
      | .error e => .error e
      | .ok out => .ok (v :: out) := by
  rw [mtfDecodeGo, h]

theorem mtfPass_decode (rest : List ℕ) :
    ∀ (ws : List ℕ) (cur : Option ℕ),
      (∀ b ∈ rest, b ∈ ws) → ws.length ≤ 256 →
      (∀ c, cur = some c → ws[0]? = some c) →
      mtfDecodeGo (mtfPass rest ws cur) ws = .ok rest := by
  induction rest with
  | nil =>
    intro ws cur _ _ _
    rfl
  | cons b rest ih =>
    intro ws cur hmem hlen hcur
    rw [mtfPass]
    by_cases hb : cur = some b
    · rw [if_pos hb, mtfDecodeGo_cons 0 _ ws b (hcur b hb), if_neg (lt_irrefl 0),
        ih ws cur (fun x hx => hmem x (by simp [hx])) hlen hcur]
    · rw [if_neg hb]
      have hbws : b ∈ ws := hmem b (by simp)
      obtain ⟨hget, hlt⟩ := idxInStack_spec b ws hbws
      have hmod : idxInStack b ws % 256 = idxInStack b ws := Nat.mod_eq_of_lt (by omega)
      rw [hmod, mtfDecodeGo_cons _ _ ws b hget]
      have hperm : (if 0 < idxInStack b ws then move_to_front (idxInStack b ws) ws else ws).Perm
          ws := by
        split
        · exact move_to_front_perm _ ws
        · exact List.Perm.refl ws
      rw [ih _ (some b) (fun x hx => hperm.mem_iff.mpr (hmem x (by simp [hx])))
        (by rw [hperm.length_eq]; exact hlen) ?front]
      case front =>
        intro c hc
        injection hc with hc
        subst hc
        split
        · exact move_to_front_head _ ws b hget
        · rename_i hp0
          have hp : idxInStack b ws = 0 := by omega
          rw [← hp]
          exact hget

theorem mtfPass_length (rest : List ℕ) :
    ∀ ws cur, (mtfPass rest ws cur).length = rest.length := by
  induction rest with
  | nil => intro ws cur; rfl
  | cons b rest ih =>
    intro ws cur
    rw [mtfPass]
    split
    · simp [ih]
    · simp [ih]

theorem emit_run_ne_nil (L : ℕ) (hL : 1 ≤ L) : emit_run L ≠ [] := by
  rw [emit_run]
  obtain ⟨m, rfl⟩ : ∃ m, L = m + 1 := ⟨L - 1, by omega⟩
  rw [emitRunGo, if_neg (by omega)]
  split <;> simp

theorem rle2Encode_ne_nil (raw : List ℕ) (h : raw ≠ []) : rle2Encode raw ≠ [] := by
  cases raw with
  | nil => exact absurd rfl h
  | cons a rest =>
    obtain ⟨hne, hhead, _, _, _⟩ := chunkByCore_spec rest a
    show ((chunkByCore zeroPred a rest).1 :: (chunkByCore zeroPred a rest).2).flatMap
      (fun c => if c.headI = 0 then emit_run c.length else c.map .Val) ≠ []
    rw [List.flatMap_cons]
    intro hnil
    obtain ⟨h1, _⟩ := List.append_eq_nil.mp hnil
    by_cases hc : (chunkByCore zeroPred a rest).1.headI = 0
    · rw [if_pos hc] at h1
      exact emit_run_ne_nil _ (by
        cases hq : (chunkByCore zeroPred a rest).1 with
        | nil => exact absurd hq hne
        | cons x xs => simp [hq]) h1
    · rw [if_neg hc] at h1
      cases hq : (chunkByCore zeroPred a rest).1 with
      | nil => exact hne hq
      | cons x xs =>
        rw [hq] at h1
        simp at h1

/- ===== The stack of distinct bytes ===== -/

theorem mem_insertSorted (x b : ℕ) (l : List ℕ) : x ∈ insertSorted b l ↔ x = b ∨ x ∈ l := by
  induction l with
  | nil => simp [insertSorted]
  | cons a rest ih =>
    rw [insertSorted]
    split
    · simp only [List.mem_cons]
    · split
      · rename_i hba
        subst hba
        simp only [List.mem_cons]
        tauto
      · simp only [List.mem_cons, ih]
        tauto

theorem mem_mkStack (x : ℕ) (data : List ℕ) : x ∈ mkStack data ↔ x ∈ data := by
  induction data with
  | nil => simp [mkStack]
  | cons d rest ih =>
    show x ∈ insertSorted d (mkStack rest) ↔ _
    rw [mem_insertSorted, ih]
    simp

theorem insertSorted_sorted (b : ℕ) (l : List ℕ) (h : List.Sorted (· < ·) l) :
    List.Sorted (· < ·) (insertSorted b l) := by
  induction l with
  | nil => simp [insertSorted]
  | cons a rest ih =>
    rw [insertSorted]
    split
    · rename_i hba
      rw [List.sorted_cons]
      refine ⟨?_, h⟩
      intro y hy
      rcases List.mem_cons.mp hy with rfl | hy
      · exact hba
      · exact lt_trans hba (List.rel_of_sorted_cons h y hy)
    · split
      · exact h
      · rename_i hba hne
        have hab : a < b := by omega
        rw [List.sorted_cons] at h ⊢
        refine ⟨?_, ih h.2⟩
        intro y hy
        rcases (mem_insertSorted y b rest).mp hy with rfl | hy
        · exact hab
        · exact h.1 y hy

theorem mkStack_sorted (data : List ℕ) : List.Sorted (· < ·) (mkStack data) := by
  induction data with
  | nil => simp [mkStack]
  | cons d rest ih => exact insertSorted_sorted d (mkStack rest) ih

theorem mkStack_nodup (data : List ℕ) : (mkStack data).Nodup :=
  (mkStack_sorted data).nodup

theorem mkStack_length_le (data : List ℕ) (h : ∀ b ∈ data, b < 256) :
    (mkStack data).length ≤ 256 := by
  have hsub : (mkStack data).toFinset ⊆ Finset.range 256 := by
    intro x hx
    rw [List.mem_toFinset, mem_mkStack] at hx
    exact Finset.mem_range.mpr (h x hx)
  calc (mkStack data).length = (mkStack data).toFinset.card :=
        (List.toFinset_card_of_nodup (mkStack_nodup data)).symm
    _ ≤ (Finset.range 256).card := Finset.card_le_card hsub
    _ = 256 := Finset.card_range 256

/-- C2: MTF+RLE2 round-trip.  For every byte block (bytes are values below
256), `MtfTransform::encode` followed by `MtfTransform::decode` returns
exactly the original block. -/
theorem c2_mtf_roundTrip (data : List ℕ) (hbytes : ∀ b ∈ data, b < 256) :
    mtfDecode (mtfEncode data) = .ok data := by
  by_cases hd : data = []
  · subst hd
    rfl
  · rw [mtfEncode, if_neg hd, mtfDecode]
    have hraw_len : (mtfPass data (mkStack data) none).length = data.length :=
      mtfPass_length data _ _
    have hraw_ne : mtfPass data (mkStack data) none ≠ [] := by
      intro h
      apply hd
      have hlen := congrArg List.length h
      rw [hraw_len] at hlen
      exact List.eq_nil_of_length_eq_zero hlen
    have hne := rle2Encode_ne_nil _ hraw_ne
    rw [if_neg (by simpa using hne)]
    show mtfDecodeGo (rleGo (rle2Encode (mtfPass data (mkStack data) none)) 0 1)
      (mkStack data) = _
    rw [rle2_roundTrip]
    exact mtfPass_decode data (mkStack data) none
      (fun b hb => (mem_mkStack b data).mpr hb)
      (mkStack_length_le data hbytes)
      (fun c hc => by cases hc)

/-- C2 witness: the round-trip at a concrete block with runs. -/
theorem c2_mtf_roundTrip_witness :
    (∀ b ∈ [97, 97, 97, 98, 99, 99], b < 256) ∧
      mtfDecode (mtfEncode [97, 97, 97, 98, 99, 99]) = .ok [97, 97, 97, 98, 99, 99] :=
  ⟨by decide, c2_mtf_roundTrip [97, 97, 97, 98, 99, 99] (by decide)⟩

/-- C5: the code panics (it does not return a typed error) when `decode` meets
an index with no stack entry: at `MtfTransform { indices: [Val(1)], stack:
[97] }` the embedded decode reaches the `expect` panic path. -/
theorem c5_decode_panics : mtfDecode ⟨[.Val 1], [97]⟩ = .error .panic := by decide

/- ===== Values appearing in the encoded symbol stream ===== -/

theorem val_not_mem_emitRunGo (i : ℕ) (fuel : ℕ) :
    ∀ L, MtfIndex.Val i ∉ emitRunGo fuel L := by
  induction fuel with
  | zero =>
    intro L
    simp [emitRunGo]
  | succ fuel ih =>
    intro L
    rw [emitRunGo]
    split
    · simp
    · split
      · intro h
        rcases List.mem_cons.mp h with h1 | h1
        · cases h1
        · exact ih _ h1
      · intro h
        rcases List.mem_cons.mp h with h1 | h1
        · cases h1
        · exact ih _ h1

theorem val_mem_rle2Encode (raw : List ℕ) (i : ℕ) (h : MtfIndex.Val i ∈ rle2Encode raw) :
    i ∈ raw ∧ i ≠ 0 := by
  cases raw with
  | nil => cases h
  | cons a rest =>
    obtain ⟨hne, hhead, hunif, hchunks, _⟩ := chunkByCore_spec rest a
    have h' : MtfIndex.Val i ∈
        ((chunkByCore zeroPred a rest).1 :: (chunkByCore zeroPred a rest).2).flatMap
          (fun c => if c.headI = 0 then emit_run c.length else c.map .Val) := h
    obtain ⟨c, hc, hic⟩ := List.mem_flatMap.mp h'
    by_cases hc0 : c.headI = 0
    · rw [if_pos hc0] at hic
      exact absurd hic (val_not_mem_emitRunGo i _ _)
    · rw [if_neg hc0] at hic
      obtain ⟨j, hjc, hji⟩ := List.mem_map.mp hic
      have hji' : j = i := by injection hji
      subst hji'
      constructor
      · have hflat : j ∈ ((chunkByCore zeroPred a rest).1 ::
            (chunkByCore zeroPred a rest).2).flatten := List.mem_flatten.mpr ⟨c, hc, hjc⟩
        rw [List.flatten_cons, chunkByCore_flatten] at hflat
        exact hflat
      · rcases List.mem_cons.mp hc with rfl | hc2
        · intro hj0
          exact hc0 (by rw [hhead]; exact (hunif j hjc).mp hj0)
        · intro hj0
          exact hc0 ((hchunks c hc2).2 j hjc |>.mp hj0)

theorem mtfPass_bounded (rest : List ℕ) :
    ∀ (ws : List ℕ) (cur : Option ℕ), (∀ b ∈ rest, b ∈ ws) →
      ∀ x ∈ mtfPass rest ws cur, x < ws.length := by
  induction rest with
  | nil =>
    intro ws cur _ x hx
    cases hx
  | cons b rest ih =>
    intro ws cur hmem x hx
    have hbws : b ∈ ws := hmem b (by simp)
    have hpos : 0 < ws.length := List.length_pos.mpr (by rintro rfl; cases hbws)
    rw [mtfPass] at hx
    by_cases hb : cur = some b
    · rw [if_pos hb] at hx
      rcases List.mem_cons.mp hx with rfl | hx
      · exact hpos
      · exact ih ws cur (fun y hy => hmem y (by simp [hy])) x hx
    · rw [if_neg hb] at hx
      obtain ⟨-, hlt⟩ := idxInStack_spec b ws hbws
      rcases List.mem_cons.mp hx with rfl | hx
      · calc idxInStack b ws % 256 ≤ idxInStack b ws := Nat.mod_le _ _
          _ < ws.length := hlt
      · have hperm : (if 0 < idxInStack b ws then move_to_front (idxInStack b ws) ws
            else ws).Perm ws := by
          split
          · exact move_to_front_perm _ ws
          · exact List.Perm.refl ws
        have := ih _ (some b) (fun y hy => hperm.mem_iff.mpr (hmem y (by simp [hy]))) x hx
        rwa [hperm.length_eq] at this

/-- C10: for every byte block, the symbol stream produced by
`MtfTransform::encode` contains no `Val(0)`: every `Val(i)` in the output
satisfies `1 ≤ i < stack.len()`, so the frequency key `i + 1` of a `Val`
never collides with RunB's key 1. -/
theorem c10_no_val_zero (data : List ℕ) (hbytes : ∀ b ∈ data, b < 256) (i : ℕ)
    (hval : MtfIndex.Val i ∈ (mtfEncode data).indices) :
    1 ≤ i ∧ i < (mtfEncode data).stack.length ∧ i + 1 ≠ 1 := by
  by_cases hd : data = []
  · subst hd
    cases hval
  · rw [mtfEncode, if_neg hd] at hval ⊢
    obtain ⟨hmem, hne⟩ := val_mem_rle2Encode _ i hval
    have hlt : i < (mkStack data).length :=
      mtfPass_bounded data (mkStack data) none
        (fun b hb => (mem_mkStack b data).mpr hb) i hmem
    exact ⟨by omega, hlt, by omega⟩

/-- C10 witness: at the concrete block [98, 97] the symbol `Val 1` occurs and
satisfies the bounds. -/
theorem c10_no_val_zero_witness :
    (∀ b ∈ [98, 97], b < 256) ∧ MtfIndex.Val 1 ∈ (mtfEncode [98, 97]).indices ∧
      (1 ≤ 1 ∧ 1 < (mtfEncode [98, 97]).stack.length ∧ 1 + 1 ≠ 1) :=
  ⟨by decide, by decide, c10_no_val_zero [98, 97] (by decide) 1 (by decide)⟩

/- ===== Prefix-freeness and depth bound of the code table ===== -/

theorem get_codes_extendsTo (t : Node) :
    ∀ (cur : List Bool) (p : Option ℕ × List Bool), p ∈ get_codes t cur →
      extendsTo cur p.2 := by
  induction t with
  | leaf f s =>
    intro cur p hp
    simp only [get_codes, List.mem_singleton] at hp
    exact ⟨[], by rw [hp, List.append_nil]⟩
  | branch l r f ihl ihr =>
    intro cur p hp
    rcases List.mem_append.mp hp with h | h
    · obtain ⟨t', ht'⟩ := ihl _ p h
      exact ⟨[false] ++ t', by rw [← List.append_assoc]; exact ht'⟩
    · obtain ⟨t', ht'⟩ := ihr _ p h
      exact ⟨[true] ++ t', by rw [← List.append_assoc]; exact ht'⟩

theorem get_codes_code_inj (t : Node) :
    ∀ (cur : List Bool) (p q : Option ℕ × List Bool), p ∈ get_codes t cur →
      q ∈ get_codes t cur → extendsTo p.2 q.2 → p = q := by
  induction t with
  | leaf f s =>
    intro cur p q hp hq _
    simp only [get_codes, List.mem_singleton] at hp hq
    rw [hp, hq]
  | branch l r f ihl ihr =>
    intro cur p q hp hq hext
    rcases List.mem_append.mp hp with hpl | hpr <;> rcases List.mem_append.mp hq with hql | hqr
    · exact ihl _ p q hpl hql hext
    · exfalso
      obtain ⟨tp, htp⟩ := get_codes_extendsTo l _ p hpl
      obtain ⟨tq, htq⟩ := get_codes_extendsTo r _ q hqr
      obtain ⟨tm, htm⟩ := hext
      have hcontra : cur ++ false :: (tp ++ tm) = cur ++ true :: tq := by
        calc cur ++ false :: (tp ++ tm) = ((cur ++ [false]) ++ tp) ++ tm := by simp
          _ = p.2 ++ tm := by rw [htp]
          _ = q.2 := htm
          _ = (cur ++ [true]) ++ tq := htq.symm
          _ = cur ++ true :: tq := by simp
      have := List.append_cancel_left hcontra
      simp at this
    · exfalso
      obtain ⟨tp, htp⟩ := get_codes_extendsTo r _ p hpr
      obtain ⟨tq, htq⟩ := get_codes_extendsTo l _ q hql
      obtain ⟨tm, htm⟩ := hext
      have hcontra : cur ++ true :: (tp ++ tm) = cur ++ false :: tq := by
        calc cur ++ true :: (tp ++ tm) = ((cur ++ [true]) ++ tp) ++ tm := by simp
          _ = p.2 ++ tm := by rw [htp]
          _ = q.2 := htm
          _ = (cur ++ [false]) ++ tq := htq.symm
          _ = cur ++ false :: tq := by simp
      have := List.append_cancel_left hcontra
      simp at this
    · exact ihr _ p q hpr hqr hext

theorem get_depth_pos (t : Node) : 1 ≤ t.get_depth := by
  cases t with
  | leaf f s => exact le_refl 1
  | branch l r f => simp [Node.get_depth]

theorem get_codes_length_le (t : Node) :
    ∀ (cur : List Bool) (p : Option ℕ × List Bool), p ∈ get_codes t cur →
      p.2.length + 1 ≤ cur.length + t.get_depth := by
  induction t with
  | leaf f s =>
    intro cur p hp
    simp only [get_codes, List.mem_singleton] at hp
    rw [hp]
    exact le_refl _
  | branch l r f ihl ihr =>
    intro cur p hp
    have hdl := get_depth_pos l
    have hdr := get_depth_pos r
    have hmaxl : l.get_depth ≤ max l.get_depth r.get_depth := le_max_left _ _
    have hmaxr : r.get_depth ≤ max l.get_depth r.get_depth := le_max_right _ _
    rcases List.mem_append.mp hp with h | h
    · have := ihl _ p h
      simp only [List.length_append, List.length_singleton] at this
      show p.2.length + 1 ≤ cur.length + (1 + max l.get_depth r.get_depth)
      omega
    · have := ihr _ p h
      simp only [List.length_append, List.length_singleton] at this
      show p.2.length + 1 ≤ cur.length + (1 + max l.get_depth r.get_depth)
      omega

/-- C3: for every iteration order of a frequency map on which
`HuffmanEncoder::new` returns normally, the code table is prefix-free (the
code of a symbol never extends to the code of a different symbol) and every
code has at most 20 bits. -/
theorem c3_codeTable (ord : List (ℕ × ℕ)) (root : Node) (table : List (Option ℕ × List Bool))
    (h : huffNew ord = .ok (some root, table)) :
    (∀ p ∈ table, ∀ q ∈ table, p.1 ≠ q.1 → ¬ extendsTo p.2 q.2) ∧
      ∀ p ∈ table, p.2.length ≤ 20 := by
  rw [huffNew] at h
  cases hbt : build_tree ord with
  | none =>
    rw [hbt] at h
    simp at h
  | some rt =>
    rw [hbt] at h
    dsimp only at h
    by_cases hdep : MAX_HUFFMAN_LEN < rt.get_depth
    · rw [if_pos hdep] at h
      cases h
    · rw [if_neg hdep] at h
      have hrt : rt = root ∧ get_codes rt [] = table := by
        injection h with h
        injection h with h1 h2
        exact ⟨by injection h1, h2⟩
      obtain ⟨rfl, htab⟩ := hrt
      subst htab
      rw [MAX_HUFFMAN_LEN] at hdep
      constructor
      · intro p hp q hq hne hext
        exact hne (congrArg Prod.fst (get_codes_code_inj rt [] p q hp hq hext))
      · intro p hp
        have hlen := get_codes_length_le rt [] p hp
        simp only [List.length_nil] at hlen
        omega

/-- C3 witness: the code table of a concrete frequency-map order is
prefix-free with codes of at most 20 bits. -/
theorem c3_codeTable_witness :
    (huffNew [(0, 0), (1, 0), (2, 1)] =
      .ok (some (Node.branch (Node.branch (Node.leaf 0 (some 1)) (Node.leaf 0 (some 0)) 0)
          (Node.leaf 1 (some 2)) 1),
        [(some 1, [false, false]), (some 0, [false, true]), (some 2, [true])])) ∧
    ((∀ p ∈ [((some 1 : Option ℕ), [false, false]), (some 0, [false, true]), (some 2, [true])],
        ∀ q ∈ [((some 1 : Option ℕ), [false, false]), (some 0, [false, true]), (some 2, [true])],
        p.1 ≠ q.1 → ¬ extendsTo p.2 q.2) ∧
      ∀ p ∈ [((some 1 : Option ℕ), [false, false]), (some 0, [false, true]), (some 2, [true])],
        p.2.length ≤ 20) :=
  ⟨by decide,
    c3_codeTable [(0, 0), (1, 0), (2, 1)]
      (Node.branch (Node.branch (Node.leaf 0 (some 1)) (Node.leaf 0 (some 0)) 0)
        (Node.leaf 1 (some 2)) 1)
      [(some 1, [false, false]), (some 0, [false, true]), (some 2, [true])] (by decide)⟩

/- ===== The Fibonacci-frequency input that reaches `rebalance` ===== -/

theorem fmBump_absent (m : List (ℕ × ℕ)) (k : ℕ) (h : ∀ e ∈ m, e.1 ≠ k) :
    fmBump m k = m ++ [(k, 1)] := by
  induction m with
  | nil => rfl
  | cons e rest ih =>
    rw [fmBump, if_neg (h e (by simp)), ih (fun x hx => h x (by simp [hx]))]
    rfl

theorem fmBump_last (m : List (ℕ × ℕ)) (k v : ℕ) (h : ∀ e ∈ m, e.1 ≠ k) :
    fmBump (m ++ [(k, v)]) k = m ++ [(k, v + 1)] := by
  induction m with
  | nil =>
    show fmBump [(k, v)] k = [(k, v + 1)]
    rw [fmBump, if_pos rfl]
  | cons e rest ih =>
    rw [List.cons_append, fmBump, if_neg (h e (by simp)),
      ih (fun x hx => h x (by simp [hx]))]
    rfl

theorem foldl_bump_replicate_present (i : ℕ) :
    ∀ (n : ℕ) (m : List (ℕ × ℕ)) (v : ℕ), (∀ e ∈ m, e.1 ≠ i + 1) →
      List.foldl (fun m idx => fmBump m (symKey idx)) (m ++ [(i + 1, v)])
        (List.replicate n (MtfIndex.Val i)) = m ++ [(i + 1, v + n)] := by
  intro n
  induction n with
  | zero =>
    intro m v h
    simp
  | succ n ih =>
    intro m v h
    rw [List.replicate_succ, List.foldl_cons]
    show List.foldl _ (fmBump (m ++ [(i + 1, v)]) (symKey (MtfIndex.Val i))) _ = _
    rw [show symKey (MtfIndex.Val i) = i + 1 from rfl, fmBump_last m (i + 1) v h,
      ih m (v + 1) h]
    have harith : v + 1 + n = v + (n + 1) := by omega
    rw [harith]

theorem foldl_bump_replicate (m : List (ℕ × ℕ)) (i n : ℕ) (hn : 1 ≤ n)
    (h : ∀ e ∈ m, e.1 ≠ i + 1) :
    List.foldl (fun m idx => fmBump m (symKey idx)) m (List.replicate n (MtfIndex.Val i)) =
      m ++ [(i + 1, n)] := by
  obtain ⟨n', rfl⟩ : ∃ n', n = n' + 1 := ⟨n - 1, by omega⟩
  rw [List.replicate_succ, List.foldl_cons]
  show List.foldl _ (fmBump m (symKey (MtfIndex.Val i))) _ = _
  rw [show symKey (MtfIndex.Val i) = i + 1 from rfl, fmBump_absent m (i + 1) h,
    foldl_bump_replicate_present i n' m 1 h]
  have harith : 1 + n' = n' + 1 := by omega
  rw [harith]

theorem foldl_fibIndices (i : ℕ) :
    List.foldl (fun m idx => fmBump m (symKey idx)) (fmInsert (fmInsert [] 0 0) 1 0)
        (fibIndices i) =
      [(0, 0), (1, 0)] ++ (List.range i).map (fun k => (k + 2, Nat.fib (k + 2))) := by
  induction i with
  | zero => rfl
  | succ i ih =>
    rw [fibIndices, List.foldl_append, ih]
    rw [foldl_bump_replicate _ (i + 1) _ (Nat.fib_pos.mpr (by omega)) ?keys]
    · rw [List.range_succ, List.map_append, List.append_assoc]
      simp
    case keys =>
      intro e he
      rcases List.mem_append.mp he with h1 | h1
      · rcases List.mem_cons.mp h1 with rfl | h2
        · simp
        · rcases List.mem_cons.mp h2 with rfl | h3
          · simp
          · cases h3
      · obtain ⟨k, hk, rfl⟩ := List.mem_map.mp h1
        have := List.mem_range.mp hk
        simp only [ne_eq, Prod.mk.injEq]
        omega

set_option maxRecDepth 4000 in
theorem freqBuild_fibMtf : freqBuild fibMtf = fibOrd := by
  rw [freqBuild]
  show fmInsert
    (List.foldl (fun m idx => fmBump m (symKey idx)) (fmInsert (fmInsert [] 0 0) 1 0)
      (fibIndices 18))
    (max (List.range 19).length 1 + 1) 1 = fibOrd
  rw [foldl_fibIndices 18]
  decide

set_option maxRecDepth 4000 in
/-- C4: at the Fibonacci-frequency input `fibMtf` the Huffman merge tree has
depth 21 > 20, and `HuffmanEncoder::new` hits the `todo!()` body of
`rebalance` — a panic, not a typed error returned to the caller. -/
theorem c4_rebalance_panics : huffNew (freqBuild fibMtf) = .error .panic := by
  rw [freqBuild_fibMtf]
  decide

/- ===== Size of the frequency map ===== -/

theorem fmBump_keys (m : List (ℕ × ℕ)) (k : ℕ) :
    (fmBump m k).map Prod.fst =
      if k ∈ m.map Prod.fst then m.map Prod.fst else m.map Prod.fst ++ [k] := by
  induction m with
  | nil => rfl
  | cons e rest ih =>
    rw [fmBump]
    by_cases hek : e.1 = k
    · rw [if_pos hek, if_pos (by simp [hek])]
      simp [hek]
    · rw [if_neg hek]
      simp only [List.map_cons, ih]
      by_cases hk : k ∈ rest.map Prod.fst
      · rw [if_pos hk, if_pos (by simp [hk])]
      · rw [if_neg hk, if_neg (by
          simp only [List.mem_cons]
          rintro (h | h)
          · exact hek h.symm
          · exact hk h)]
        simp

theorem fmInsert_keys (m : List (ℕ × ℕ)) (k v : ℕ) :
    (fmInsert m k v).map Prod.fst =
      if k ∈ m.map Prod.fst then m.map Prod.fst else m.map Prod.fst ++ [k] := by
  induction m with
  | nil => rfl
  | cons e rest ih =>
    rw [fmInsert]
    by_cases hek : e.1 = k
    · rw [if_pos hek, if_pos (by simp [hek])]
      simp [hek]
    · rw [if_neg hek]
      simp only [List.map_cons, ih]
      by_cases hk : k ∈ rest.map Prod.fst
      · rw [if_pos hk, if_pos (by simp [hk])]
      · rw [if_neg hk, if_neg (by
          simp only [List.mem_cons]
          rintro (h | h)
          · exact hek h.symm
          · exact hk h)]
        simp

theorem keys_snoc_nodup (l : List ℕ) (k : ℕ) (h : l.Nodup) (hk : k ∉ l) :
    (l ++ [k]).Nodup := by
  rw [List.nodup_append]
  refine ⟨h, List.nodup_singleton k, ?_⟩
  intro x hx hxk
  rw [List.mem_singleton] at hxk
  subst hxk
  exact hk hx

theorem fmBump_keys_nodup (m : List (ℕ × ℕ)) (k : ℕ) (h : (m.map Prod.fst).Nodup) :
    ((fmBump m k).map Prod.fst).Nodup := by
  rw [fmBump_keys]
  split
  · exact h
  · exact keys_snoc_nodup _ k h (by assumption)

theorem fmInsert_keys_nodup (m : List (ℕ × ℕ)) (k v : ℕ) (h : (m.map Prod.fst).Nodup) :
    ((fmInsert m k v).map Prod.fst).Nodup := by
  rw [fmInsert_keys]
  split
  · exact h
  · exact keys_snoc_nodup _ k h (by assumption)

theorem foldl_bump_keys_nodup (l : List MtfIndex) :
    ∀ m, (m.map Prod.fst).Nodup →
      ((l.foldl (fun m idx => fmBump m (symKey idx)) m).map Prod.fst).Nodup := by
  induction l with
  | nil => intro m h; exact h
  | cons idx rest ih => intro m h; exact ih _ (fmBump_keys_nodup m _ h)

theorem foldl_bump_keys_toFinset (l : List MtfIndex) :
    ∀ m : List (ℕ × ℕ),
      ((l.foldl (fun m idx => fmBump m (symKey idx)) m).map Prod.fst).toFinset =
        (m.map Prod.fst).toFinset ∪ (l.map symKey).toFinset := by
  induction l with
  | nil => intro m; simp
  | cons idx rest ih =>
    intro m
    rw [List.foldl_cons, ih, List.map_cons, List.toFinset_cons, fmBump_keys]
    split
    · rename_i hmem
      ext x
      simp only [Finset.mem_union, List.mem_toFinset, Finset.mem_insert]
      constructor
      · rintro (h | h)
        · exact Or.inl h
        · exact Or.inr (Or.inr h)
      · rintro (h | h | h)
        · exact Or.inl h
        · subst h
          exact Or.inl hmem
        · exact Or.inr h
    · ext x
      simp only [List.toFinset_append, Finset.mem_union, List.mem_toFinset,
        Finset.mem_insert, List.mem_singleton]
      constructor
      · rintro ((h | h) | h)
        · exact Or.inl h
        · exact Or.inr (Or.inl h)
        · exact Or.inr (Or.inr h)
      · rintro (h | h | h)
        · exact Or.inl (Or.inl h)
        · exact Or.inl (Or.inr h)
        · exact Or.inr h

theorem fmInsert_keys_toFinset (m : List (ℕ × ℕ)) (k v : ℕ) :
    ((fmInsert m k v).map Prod.fst).toFinset = (m.map Prod.fst).toFinset ∪ {k} := by
  rw [fmInsert_keys]
  split
  · rename_i hmem
    ext x
    simp only [Finset.mem_union, List.mem_toFinset, Finset.mem_singleton]
    constructor
    · exact fun h => Or.inl h
    · rintro (h | h)
      · exact h
      · subst h
        exact hmem
  · ext x
    simp only [List.toFinset_append, Finset.mem_union, List.mem_toFinset]
    simp

theorem mem_valsOf (l : List MtfIndex) (i : ℕ) : i ∈ valsOf l ↔ MtfIndex.Val i ∈ l := by
  rw [valsOf, List.mem_filterMap]
  constructor
  · rintro ⟨idx, hidx, heq⟩
    cases idx with
    | RunA => cases heq
    | RunB => cases heq
    | Val j =>
      have : j = i := by injection heq
      subst this
      exact hidx
  · intro h
    exact ⟨.Val i, h, rfl⟩

theorem symKeys_toFinset (l : List MtfIndex) :
    ({0, 1} : Finset ℕ) ∪ (l.map symKey).toFinset =
      ({0, 1} : Finset ℕ) ∪ (valsOf l).toFinset.image (· + 1) := by
  ext x
  simp only [Finset.mem_union, Finset.mem_insert, Finset.mem_singleton, List.mem_toFinset,
    Finset.mem_image]
  constructor
  · rintro ((h | h) | h)
    · exact Or.inl (Or.inl h)
    · exact Or.inl (Or.inr h)
    · obtain ⟨idx, hidx, hsym⟩ := List.mem_map.mp h
      cases idx with
      | RunA => exact Or.inl (Or.inl hsym.symm)
      | RunB => exact Or.inl (Or.inr hsym.symm)
      | Val i =>
        exact Or.inr ⟨i, (mem_valsOf l i).mpr hidx, hsym⟩
  · rintro ((h | h) | h)
    · exact Or.inl (Or.inl h)
    · exact Or.inl (Or.inr h)
    · obtain ⟨i, hi, hx⟩ := h
      refine Or.inr (List.mem_map.mpr ⟨.Val i, ?_, hx⟩)
      exact (mem_valsOf l i).mp hi

theorem freqBuild_keys_toFinset (mtf : MtfTransform) :
    ((freqBuild mtf).map Prod.fst).toFinset =
      ({0, 1} : Finset ℕ) ∪ (mtf.indices.map symKey).toFinset ∪
        {max mtf.stack.length 1 + 1} := by
  rw [freqBuild, fmInsert_keys_toFinset, foldl_bump_keys_toFinset]
  congr 2

theorem freqBuild_length_eq_card (mtf : MtfTransform) :
    (freqBuild mtf).length = ((freqBuild mtf).map Prod.fst).toFinset.card := by
  have hnodup : ((freqBuild mtf).map Prod.fst).Nodup := by
    rw [freqBuild]
    apply fmInsert_keys_nodup
    apply foldl_bump_keys_nodup
    decide
  rw [List.toFinset_card_of_nodup hnodup, List.length_map]

/-- C6 (amended): for every `MtfTransform` whose `Val(i)` symbols all satisfy
`1 ≤ i < stack.len()` (the invariant `encode` establishes), the frequency map
has exactly `3 + d` entries where `d` is the number of distinct `Val` values,
and hence at most `max(stack.len(), 1) + 2` entries — not `stack.len() + 3`. -/
theorem c6_freq_size (mtf : MtfTransform)
    (hvals : ∀ i, MtfIndex.Val i ∈ mtf.indices → 1 ≤ i ∧ i < mtf.stack.length) :
    (freqBuild mtf).length = 3 + (valsOf mtf.indices).dedup.length ∧
      (freqBuild mtf).length ≤ max mtf.stack.length 1 + 2 := by
  have hvals' : ∀ i ∈ valsOf mtf.indices, 1 ≤ i ∧ i < mtf.stack.length :=
    fun i hi => hvals i ((mem_valsOf _ i).mp hi)
  have hmax := max_choice mtf.stack.length 1
  have hset : ((freqBuild mtf).map Prod.fst).toFinset =
      ({0, 1} : Finset ℕ) ∪ (valsOf mtf.indices).toFinset.image (· + 1) ∪
        {max mtf.stack.length 1 + 1} := by
    rw [freqBuild_keys_toFinset, symKeys_toFinset]
  have himg_sub : (valsOf mtf.indices).toFinset.image (· + 1) ⊆
      Finset.Ico 2 (mtf.stack.length + 1) := by
    intro x hx
    obtain ⟨i, hi, rfl⟩ := Finset.mem_image.mp hx
    have := hvals' i (List.mem_toFinset.mp hi)
    exact Finset.mem_Ico.mpr ⟨by omega, by omega⟩
  have hd1 : Disjoint ({0, 1} : Finset ℕ)
      ((valsOf mtf.indices).toFinset.image (· + 1)) := by
    rw [Finset.disjoint_left]
    intro x hx hximg
    have hival := Finset.mem_Ico.mp (himg_sub hximg)
    rcases Finset.mem_insert.mp hx with rfl | hx1
    · omega
    · rw [Finset.mem_singleton] at hx1
      omega
  have hd2 : Disjoint (({0, 1} : Finset ℕ) ∪ (valsOf mtf.indices).toFinset.image (· + 1))
      ({max mtf.stack.length 1 + 1} : Finset ℕ) := by
    rw [Finset.disjoint_right]
    intro x hx hxu
    rw [Finset.mem_singleton] at hx
    subst hx
    rcases Finset.mem_union.mp hxu with h | h
    · rcases Finset.mem_insert.mp h with h1 | h1
      · omega
      · rw [Finset.mem_singleton] at h1
        omega
    · have hival := Finset.mem_Ico.mp (himg_sub h)
      omega
  have hinj : Function.Injective (· + 1 : ℕ → ℕ) := fun a b h => Nat.add_right_cancel h
  have hcard : ((freqBuild mtf).map Prod.fst).toFinset.card =
      2 + (valsOf mtf.indices).toFinset.card + 1 := by
    rw [hset, Finset.card_union_of_disjoint hd2, Finset.card_union_of_disjoint hd1,
      Finset.card_image_of_injective _ hinj, Finset.card_singleton]
    rfl
  have hsub : (valsOf mtf.indices).toFinset ⊆ Finset.Ico 1 mtf.stack.length := by
    intro i hi
    have := hvals' i (List.mem_toFinset.mp hi)
    exact Finset.mem_Ico.mpr ⟨by omega, by omega⟩
  have hbound := Finset.card_le_card hsub
  rw [Nat.card_Ico] at hbound
  have hdedup : (valsOf mtf.indices).toFinset.card = (valsOf mtf.indices).dedup.length :=
    List.card_toFinset _
  constructor
  · rw [freqBuild_length_eq_card, hcard, hdedup]
    omega
  · rw [freqBuild_length_eq_card, hcard]
    omega

/-- C6 counterexample: at `MtfTransform { indices: vec![], stack: vec![97] }`
the claim's premise holds vacuously and the stack is nonempty, yet the
frequency map has 3 entries, not `stack.len() + 3 = 4`. -/
theorem c6_freq_size_cex :
    (∀ i, MtfIndex.Val i ∈ (MtfTransform.mk [] [97]).indices →
        i < (MtfTransform.mk [] [97]).stack.length) ∧
      1 ≤ (MtfTransform.mk [] [97]).stack.length ∧
      (freqBuild (MtfTransform.mk [] [97])).length ≠
        (MtfTransform.mk [] [97]).stack.length + 3 := by
  refine ⟨?_, by decide, by decide⟩
  intro i hi
  cases hi

/-- C6 witness: the amended size law at a concrete transform. -/
theorem c6_freq_size_witness :
    (∀ i, MtfIndex.Val i ∈ (MtfTransform.mk [.Val 1] [97, 98]).indices →
        1 ≤ i ∧ i < (MtfTransform.mk [.Val 1] [97, 98]).stack.length) ∧
      ((freqBuild (MtfTransform.mk [.Val 1] [97, 98])).length =
          3 + (valsOf (MtfTransform.mk [.Val 1] [97, 98]).indices).dedup.length ∧
        (freqBuild (MtfTransform.mk [.Val 1] [97, 98])).length ≤
          max (MtfTransform.mk [.Val 1] [97, 98]).stack.length 1 + 2) := by
  have hvals : ∀ i, MtfIndex.Val i ∈ (MtfTransform.mk [.Val 1] [97, 98]).indices →
      1 ≤ i ∧ i < (MtfTransform.mk [.Val 1] [97, 98]).stack.length := by
    intro i hi
    have h1 : MtfIndex.Val i = MtfIndex.Val 1 := List.mem_singleton.mp hi
    have h2 : i = 1 := by injection h1
    subst h2
    exact ⟨by omega, by decide⟩
  exact ⟨hvals, c6_freq_size (MtfTransform.mk [.Val 1] [97, 98]) hvals⟩

/- ===== Dependence of the Huffman code table on the map iteration order ===== -/

theorem get_codes_map_fst (t : Node) :
    ∀ cur, (get_codes t cur).map Prod.fst = leafSyms t := by
  induction t with
  | leaf f s => intro cur; rfl
  | branch l r f ihl ihr =>
    intro cur
    rw [get_codes, List.map_append, ihl, ihr, leafSyms]

theorem popLastTwo_eq (l : List Node) (a b : Node) (rest : List Node)
    (h : popLastTwo l = some (a, b, rest)) : l = rest ++ [b, a] := by
  rw [popLastTwo] at h
  cases hrev : l.reverse with
  | nil =>
    rw [hrev] at h
    cases h
  | cons x xs =>
    cases xs with
    | nil =>
      rw [hrev] at h
      cases h
    | cons y ys =>
      rw [hrev] at h
      injection h with h
      have h1 : x = a := congrArg Prod.fst h
      have h2 : y = b := congrArg (fun p => p.2.1) h
      have h3 : ys.reverse = rest := congrArg (fun p => p.2.2) h
      subst h1
      subst h2
      subst h3
      have hl : l = (x :: y :: ys).reverse := by
        rw [← hrev, List.reverse_reverse]
      rw [hl]
      simp

theorem mergeLoop_length_one (fuel : ℕ) :
    ∀ (l l' : List Node), mergeLoop fuel l = some l' → l'.length = 1 := by
  induction fuel with
  | zero =>
    intro l l' h
    rw [mergeLoop] at h
    split at h
    · injection h with h
      subst h
      assumption
    · cases h
  | succ fuel ih =>
    intro l l' h
    rw [mergeLoop] at h
    split at h
    · injection h with h
      subst h
      assumption
    · cases hpop : popLastTwo l with
      | none =>
        rw [hpop] at h
        cases h
      | some abc =>
        rw [hpop] at h
        exact ih _ _ h

theorem mergeLoop_syms (fuel : ℕ) :
    ∀ (l l' : List Node), mergeLoop fuel l = some l' →
      (l'.flatMap leafSyms).Perm (l.flatMap leafSyms) := by
  induction fuel with
  | zero =>
    intro l l' h
    rw [mergeLoop] at h
    split at h
    · injection h with h
      subst h
      exact List.Perm.refl _
    · cases h
  | succ fuel ih =>
    intro l l' h
    rw [mergeLoop] at h
    split at h
    · injection h with h
      subst h
      exact List.Perm.refl _
    · cases hpop : popLastTwo l with
      | none =>
        rw [hpop] at h
        cases h
      | some abc =>
        obtain ⟨a, b, rest⟩ := abc
        rw [hpop] at h
        have hrec := ih _ _ h
        have hl := popLastTwo_eq l a b rest hpop
        have hsort : ((sortNodes (rest ++ [Node.new_branch a b])).flatMap leafSyms).Perm
            ((rest ++ [Node.new_branch a b]).flatMap leafSyms) :=
          (List.perm_insertionSort _ _).flatMap_right leafSyms
        refine hrec.trans (hsort.trans ?_)
        rw [hl]
        simp only [List.flatMap_append]
        refine List.Perm.append_left _ ?_
        show (leafSyms (Node.new_branch a b) ++ []).Perm
          (leafSyms b ++ (leafSyms a ++ []))
        rw [List.append_nil, Node.new_branch]
        show (leafSyms a ++ leafSyms b).Perm _
        rw [List.append_nil]
        exact List.perm_append_comm

theorem leaves_flatMap_syms (ord : List (ℕ × ℕ)) :
    (ord.map fun e => Node.leaf e.2 (some e.1)).flatMap leafSyms =
      ord.map fun e => some e.1 := by
  induction ord with
  | nil => rfl
  | cons e rest ih =>
    simp only [List.map_cons, List.flatMap_cons, ih]
    rfl

theorem build_tree_syms (ord : List (ℕ × ℕ)) (root : Node) (h : build_tree ord = some root) :
    (leafSyms root).Perm (ord.map fun e => some e.1) := by
  rw [build_tree] at h
  cases hml : mergeLoop ord.length
      (sortNodes (ord.map fun e => Node.leaf e.2 (some e.1))) with
  | none =>
    rw [hml] at h
    cases h
  | some l' =>
    rw [hml] at h
    dsimp only at h
    have hperm := mergeLoop_syms _ _ _ hml
    have hsort : ((sortNodes (ord.map fun e => Node.leaf e.2 (some e.1))).flatMap
        leafSyms).Perm ((ord.map fun e => Node.leaf e.2 (some e.1)).flatMap leafSyms) :=
      (List.perm_insertionSort _ _).flatMap_right leafSyms
    have hlen := mergeLoop_length_one _ _ _ hml
    obtain ⟨x, rfl⟩ : ∃ x, l' = [x] := by
      match l', hlen with
      | [x], _ => exact ⟨x, rfl⟩
    have hx : x = root := by
      simpa using h
    subst hx
    have hflat : ([x].flatMap leafSyms) = leafSyms x := by simp
    rw [hflat] at hperm
    rw [leaves_flatMap_syms] at hsort
    exact hperm.trans hsort

theorem huffNew_ok_inv (ord : List (ℕ × ℕ)) (root : Node)
    (table : List (Option ℕ × List Bool)) (h : huffNew ord = .ok (some root, table)) :
    build_tree ord = some root ∧ table = get_codes root [] := by
  rw [huffNew] at h
  cases hbt : build_tree ord with
  | none =>
    rw [hbt] at h
    simp at h
  | some rt =>
    rw [hbt] at h
    dsimp only at h
    by_cases hdep : MAX_HUFFMAN_LEN < rt.get_depth
    · rw [if_pos hdep] at h
      cases h
    · rw [if_neg hdep] at h
      injection h with h
      injection h with h1 h2
      have hroot : rt = root := by injection h1
      subst hroot
      exact ⟨rfl, h2.symm⟩

/-- C8 counterexample: two iteration orders of the same frequency map (the
frequency map of the empty transform) make `HuffmanEncoder::new` produce
different code tables — the equal-frequency tie is decided by the `HashMap`
iteration order, not by a fixed deterministic rule. -/
theorem c8_tiebreak_cex :
    ([(0, 0), (1, 0), (2, 1)] : List (ℕ × ℕ)).Perm (freqBuild ⟨[], []⟩) ∧
      ([(1, 0), (0, 0), (2, 1)] : List (ℕ × ℕ)).Perm (freqBuild ⟨[], []⟩) ∧
      huffNew [(0, 0), (1, 0), (2, 1)] ≠ huffNew [(1, 0), (0, 0), (2, 1)] := by
  refine ⟨?_, ?_, by decide⟩ <;> decide

/-- C8 (amended): the construction is deterministic only given the frequency
map's iteration order.  What is preserved across two runs over permuted
entries of the same map is the symbol set of the code table: the tables list
the same symbols up to permutation, though the assigned bit sequences can
differ. -/
theorem c8_syms_invariant (ord₁ ord₂ : List (ℕ × ℕ)) (r₁ r₂ : Node)
    (t₁ t₂ : List (Option ℕ × List Bool)) (hperm : ord₁.Perm ord₂)
    (h₁ : huffNew ord₁ = .ok (some r₁, t₁)) (h₂ : huffNew ord₂ = .ok (some r₂, t₂)) :
    (t₁.map Prod.fst).Perm (t₂.map Prod.fst) := by
  obtain ⟨hb₁, ht₁⟩ := huffNew_ok_inv ord₁ r₁ t₁ h₁
  obtain ⟨hb₂, ht₂⟩ := huffNew_ok_inv ord₂ r₂ t₂ h₂
  rw [ht₁, ht₂, get_codes_map_fst, get_codes_map_fst]
  exact (build_tree_syms ord₁ r₁ hb₁).trans
    ((hperm.map _).trans (build_tree_syms ord₂ r₂ hb₂).symm)

/-- C8 witness: the symbol-set invariance applied at two concrete orders of
the same frequency map. -/
theorem c8_syms_invariant_witness :
    (([(0, 0), (1, 0), (2, 1)] : List (ℕ × ℕ)).Perm [(1, 0), (0, 0), (2, 1)]) ∧
      ((([(some 1, [false, false]), (some 0, [false, true]), (some 2, [true])] :
          List (Option ℕ × List Bool)).map Prod.fst).Perm
        (([(some 0, [false, false]), (some 1, [false, true]), (some 2, [true])] :
          List (Option ℕ × List Bool)).map Prod.fst)) :=
  ⟨by decide,
    c8_syms_invariant [(0, 0), (1, 0), (2, 1)] [(1, 0), (0, 0), (2, 1)]
      (Node.branch (Node.branch (Node.leaf 0 (some 1)) (Node.leaf 0 (some 0)) 0)
        (Node.leaf 1 (some 2)) 1)
      (Node.branch (Node.branch (Node.leaf 0 (some 0)) (Node.leaf 0 (some 1)) 0)
        (Node.leaf 1 (some 2)) 1)
      [(some 1, [false, false]), (some 0, [false, true]), (some 2, [true])]
      [(some 0, [false, false]), (some 1, [false, true]), (some 2, [true])]
      (by decide) (by decide) (by decide)⟩

/- ===== Agreement with the repository's unit tests ===== -/

/-- The embedding reproduces the repository's `test_bwt_encode` case for
"aba". -/
theorem bwtEncode_aba : bwtEncode [97, 98, 97] = .ok ⟨[98, 97, 97], 1⟩ := by decide

/-- The embedding reproduces the repository's `test_bwt_decode` case for
("baa", 1). -/
theorem bwtDecode_baa : bwtDecode ⟨[98, 97, 97], 1⟩ = .ok [97, 98, 97] := by decide

/-- The embedding reproduces the repository's `test_mtf_encode` case for
"aaaaabbbbbccccc". -/
theorem mtfEncode_runs :
    mtfEncode [97, 97, 97, 97, 97, 98, 98, 98, 98, 98, 99, 99, 99, 99, 99] =
      ⟨[.RunA, .RunB, .Val 1, .RunB, .RunA, .Val 2, .RunB, .RunA], [97, 98, 99]⟩ := by decide

/-- The embedding reproduces the repository's `test_freq_map` case
`[RUNA, RUNA, RUNB]` with stack `[0]`. -/
theorem freqBuild_one_run :
    freqBuild ⟨[.RunA, .RunA, .RunB], [0]⟩ = [(0, 2), (1, 1), (2, 1)] := by decide

end Bzippr
